import Mathlib

set_option maxRecDepth 4000

/-!
Verification of the incremental archive synchronization engine of
discord-archiver (src/discord-archiver.js) against its specification.

The JavaScript program is shallowly embedded: file contents and ids are
`List Char`, JavaScript string operations (`includes`, `replace`, relational
comparison, truthiness) are modelled by executable Lean functions with the
semantics of the corresponding JS operations on the values the program
manipulates, and the two regular expressions built by `MessagePatterns`
(`messageBlockRegex`, `replyReferenceRegex`) are embedded by direct scanning
functions implementing their matching semantics.  Filesystem effects are
modelled as explicit action traces where a claim depends on them.  Upstream
(Discord API) responses consumed by the code are passed in as explicit
inputs (`Upstream`).
-/

namespace Archiver

/-- File contents, ids and all other JS strings are lists of characters. -/
abbrev Str := List Char

/-- JS truthiness of a string: `''` is falsy, everything else truthy.
A `null` from `readFileIfExists` behaves exactly like `''` in every use the
program makes of it (`existing &&`, `existing ?`, append target), so absent
files are modelled as `[]`. -/
def truthyStr (s : Str) : Bool := !s.isEmpty

/-- JS truthiness of a possibly-absent string (`undefined` and `''` falsy). -/
def optStr (o : Option Str) : Str := o.getD []

/-- Truthiness of an optional string. -/
def truthyOpt (o : Option Str) : Bool := truthyStr (optStr o)

/-- JS `a || b` on strings. -/
def jsOrStr (a b : Str) : Str := if a.isEmpty then b else a

/-- Backtick character, written by code point. -/
def backtick : Char := Char.ofNat 96

/-! ## Prefix and substring predicates (JS `startsWith` / `includes`) -/

/-- Boolean prefix test on character lists. -/
def isPfx : Str → Str → Bool
  | [], _ => true
  | _ :: _, [] => false
  | a :: as, b :: bs => a == b && isPfx as bs

/-- `occursB pat s` models JS `s.includes(pat)`: `pat` occurs as a
contiguous substring of `s`. -/
def occursB (pat : Str) : Str → Bool
  | [] => isPfx pat []
  | c :: cs => isPfx pat (c :: cs) || occursB pat cs

/-! ## JS relational comparison on strings (code-unit lexicographic) -/

/-- JS `a < b` on strings: lexicographic comparison of code units. -/
def jsLtB : Str → Str → Bool
  | [], [] => false
  | [], _ :: _ => true
  | _ :: _, [] => false
  | a :: as, b :: bs => if a < b then true else if b < a then false else jsLtB as bs

/-- JS `a >= b` on strings. -/
def jsGeB (a b : Str) : Bool := !jsLtB a b

/-- JS `a > b` on strings. -/
def jsGtB (a b : Str) : Bool := jsLtB b a

/-- Maximum of two ids in JS string (lexicographic) order. -/
def lexMax (a b : Str) : Str := if jsGeB a b then a else b

/-- Numeric value of a decimal digit string (the canonical numeric order on
Discord snowflake ids, which the spec demands for comparisons). -/
def decimalValue : Str → Nat :=
  List.foldl (fun n c => n * 10 + (c.toNat - 48)) 0

/-- Decimal digit test. -/
def isDigitCh (c : Char) : Bool := '0' ≤ c && c ≤ '9'

/-- All characters are decimal digits. -/
def isDigitStr (s : Str) : Bool := s.all isDigitCh

/-! ## JS string replacement -/

/-- JS `s.replace(pat, repl)` with a plain (or escaped-literal) pattern and
no global flag: replace the first occurrence only.  Used for mention
rewriting. -/
def replaceFirst (pat repl : Str) : Str → Str
  | [] => if isPfx pat [] then repl else []
  | c :: cs =>
    if isPfx pat (c :: cs) then repl ++ (c :: cs).drop pat.length
    else c :: replaceFirst pat repl cs

/-- Scan for `replaceAllSub`: the counter is the number of characters of a
just-replaced occurrence still to be consumed silently. -/
def replAllAux (pat repl : Str) : Nat → Str → Str
  | _, [] => []
  | k + 1, _ :: cs => replAllAux pat repl k cs
  | 0, c :: cs =>
    if isPfx pat (c :: cs) then repl ++ replAllAux pat repl (pat.length - 1) cs
    else c :: replAllAux pat repl 0 cs

/-- JS `s.replace(regex-with-g-flag, repl)` for an escaped-literal pattern:
replace every (non-overlapping, left-to-right) occurrence.  The program only
uses it with non-empty patterns (`replyReferenceRegex`). -/
def replaceAllSub (pat repl s : Str) : Str := replAllAux pat repl 0 s

/-- JS `s.replace(/\n+$/, '\n')`: collapse a non-empty trailing newline run
to a single newline. -/
def trimTrailingNewlines (s : Str) : Str :=
  if s.reverse.head? == some '\n' then
    (s.reverse.dropWhile (fun c => c = '\n')).reverse ++ ['\n']
  else s

/-- Whitespace for `trimStart`.  The program applies `trimStart` only to
rendered blocks, which start with `'\n'` followed by `'#'`, so the ASCII
whitespace set is exact on all reachable inputs. -/
def jsWhitespace (c : Char) : Bool := c = ' ' || c = '\n' || c = '\t' || c = '\r'

/-- JS `s.trimStart()`. -/
def jsTrimStart (s : Str) : Str := s.dropWhile jsWhitespace

/-! ## CheckpointStore: `saveCheckpoint`

The source reads the store and then

  if (checkpoints[channelId] && checkpoints[channelId] >= lastId) return;
  checkpoints[channelId] = lastId;

The comparison `>=` is JS string comparison (code-unit lexicographic). -/

/-- One `saveCheckpoint` call, restricted to the entry of that target. -/
def saveCheckpointEntry (stored : Option Str) (lastId : Str) : Option Str :=
  match stored with
  | some v => if truthyStr v && jsGeB v lastId then some v else some lastId
  | none => some lastId

/-- A sequence of `advance` calls on one target. -/
def advanceSeq (stored : Option Str) (ids : List Str) : Option Str :=
  ids.foldl saveCheckpointEntry stored

/-! ## CheckpointStore persistence

`writeJSON` is `fs.writeFile(file, JSON.stringify(content, null, 2))`: a
single direct write to the target path.  Filesystem effects of one
`saveCheckpoint` call are modelled as a trace of actions.  `JSON.stringify`
of the store object is modelled by `stringifyCheckpoints` (ids and channel
keys need no JSON escaping). -/

/-- A filesystem action performed by the program. -/
inductive FsAction where
  | write (path content : Str)
  | rename (src dst : Str)
deriving DecidableEq

/-- Whether an action is a rename (atomic-replace step). -/
def FsAction.isRename : FsAction → Bool
  | .rename _ _ => true
  | .write _ _ => false

/-- JS object property update (insertion order preserved, new keys appended). -/
def setKey : List (Str × Str) → Str → Str → List (Str × Str)
  | [], k, v => [(k, v)]
  | (k', v') :: t, k, v => if k' = k then (k', v) :: t else (k', v') :: setKey t k v

/-- JS object property lookup. -/
def jsLookup : List (Str × Str) → Str → Option Str
  | [], _ => none
  | (k', v') :: t, k => if k' = k then some v' else jsLookup t k

/-- One serialized `"key": "value"` line block of `JSON.stringify(_, null, 2)`. -/
def stringifyEntries : List (Str × Str) → Str
  | [] => []
  | [(k, v)] => "    \"".data ++ k ++ "\": \"".data ++ v ++ "\"".data
  | (k, v) :: t =>
    "    \"".data ++ k ++ "\": \"".data ++ v ++ "\",\n".data ++ stringifyEntries t

/-- `JSON.stringify({ channels: cps }, null, 2)`. -/
def stringifyCheckpoints (cps : List (Str × Str)) : Str :=
  if cps = [] then "\x7b\n  \"channels\": \x7b\x7d\n\x7d".data
  else "\x7b\n  \"channels\": \x7b\n".data ++ stringifyEntries cps ++ "\n  \x7d\n\x7d".data

/-- Default `CHECKPOINT_PATH`. -/
def checkpointPath : Str := "./data/checkpoints.json".data

/-- Trace of `writeJSON`: one direct write to the given path. -/
def writeJSONActions (file content : Str) : List FsAction :=
  [FsAction.write file content]

/-- Filesystem actions of one `saveCheckpoint(channelId, lastId)` call given
the currently stored mapping. -/
def saveCheckpointActions (cps : List (Str × Str)) (channelId lastId : Str) :
    List FsAction :=
  match jsLookup cps channelId with
  | some v =>
    if truthyStr v && jsGeB v lastId then []
    else writeJSONActions checkpointPath (stringifyCheckpoints (setKey cps channelId lastId))
  | none => writeJSONActions checkpointPath (stringifyCheckpoints (setKey cps channelId lastId))

/-! ## TargetFilter: `hasMatchingTag` -/

/-- Character-wise lowercasing, modelling JS `toLowerCase` on the tag and
filter strings the program handles. -/
def lowerStr (s : Str) : Str := s.map Char.toLower

/-- `hasMatchingTag` from the source.  `appliedTags` models
`thread.appliedTags` (`none` = absent), `parentAvailableTags` models
`thread.parent?.availableTags`, each entry `(id, name?)`. -/
def hasMatchingTag (filterTags : List Str) (appliedTags : Option (List Str))
    (parentAvailableTags : Option (List (Str × Option Str))) : Bool :=
  if filterTags.isEmpty then true
  else
    let tags := match appliedTags with
      | some l => if l.isEmpty then [] else l
      | none => []
    match parentAvailableTags with
    | none => false
    | some avail =>
      if avail.isEmpty || tags.isEmpty then false
      else
        let names :=
          ((tags.map (fun tid =>
            ((avail.find? (fun t => t.1 == tid)).bind (fun t => t.2)).map lowerStr)).filterMap
              id).filter (fun n => !n.isEmpty)
        names.any (fun n => filterTags.any (fun f => occursB f n || occursB n f))

/-- Specification-side view: the sub-target's resolved label names (raw,
before lowercasing). -/
def resolvedTagNames (appliedTags : Option (List Str))
    (parentAvailableTags : Option (List (Str × Option Str))) : List Str :=
  match parentAvailableTags, appliedTags with
  | some avail, some tags =>
    tags.filterMap (fun tid => (avail.find? (fun t => t.1 == tid)).bind (fun t => t.2))
  | _, _ => []

/-! ## RecordFormatter: `MessageFormat` / `MessagePatterns` -/

/-- `MessageFormat.sectionMarker(msgId)`. -/
def sectionMarker (msgId : Str) : Str := "## Message ".data ++ msgId

/-- A marker line as matched by `messageBlockRegex`: the marker followed by
a newline. -/
def markerLineOf (msgId : Str) : Str := sectionMarker msgId ++ ['\n']

/-- The lookahead pattern of `messageBlockRegex`: a newline followed by the
marker prefix `"## Message "` (prefix of any block-start marker line). -/
def mstart : Str := "\n## Message ".data

/-- `MessageFormat.metadata.author`. -/
def metadataAuthor (displayName username discriminator userId : Str) : Str :=
  "By @".data ++ displayName ++ " (".data ++ username ++ "#".data ++
    discriminator ++ " ".data ++ userId ++ ")".data

/-- `MessageFormat.metadata.timestamp`. -/
def metadataTimestamp (ts : Str) : Str := "at *".data ++ ts ++ "*".data

/-- `MessageFormat.metadata.modified`. -/
def metadataModified (ts : Str) : Str :=
  "**MODIFIED** last time at *".data ++ ts ++ "*".data

/-- `MessageFormat.replyLinkFormat.prefix`. -/
def replyLinkPrefix : Str := "in reply to ".data

/-- The link-form reply reference text, which is also the literal string
matched by `replyReferenceRegex(msgId)`. -/
def replyReference (msgId : Str) : Str :=
  replyLinkPrefix ++ "[".data ++ msgId ++ "](#message-".data ++ msgId ++ ")".data

/-- `MessageFormat.deletedReplyFormat`. -/
def deletedReplyFormat (msgId : Str) : Str :=
  "**DELETED MESSAGE** (".data ++ msgId ++ ")".data

/-- `MessagePatterns.deletedMessageReference`. -/
def deletedMessageReference (msgId : Str) : Str :=
  replyLinkPrefix ++ deletedReplyFormat msgId

/-- `MessageFormat.attachments.item`. -/
def attachmentItem (name url : Str) : Str :=
  "- [".data ++ name ++ "](".data ++ url ++ ")".data

/-- `MessagePatterns.containsMessage(content, msgId)`: JS
`content.includes(marker)`. -/
def containsMessage (content msgId : Str) : Bool :=
  occursB (sectionMarker msgId) content

/-- Longest run of backticks: accumulator version. -/
def longestRunAux : Str → Nat → Nat → Nat
  | [], cur, best => max cur best
  | c :: cs, cur, best =>
    if c = backtick then longestRunAux cs (cur + 1) best
    else longestRunAux cs 0 (max cur best)

/-- Length of the longest backtick run in a string (`content.match(/`+/g)`
maximal-run lengths, maximized). -/
def longestBacktickRun (s : Str) : Nat := longestRunAux s 0 0

/-- `MessageFormat.codeBlock.sanitize(content)`.  JS returns `''` for falsy
content (modelled as `none`, which makes the destructured `fence`/`content`
undefined and the body empty); otherwise an object with a fence one backtick
longer than the longest run found (minimum 3) and the unchanged content. -/
def sanitize (content : Str) : Option (Str × Str) :=
  if content.isEmpty then none
  else
    some (List.replicate (max 3 (max 2 (longestBacktickRun content) + 1)) backtick,
      content)

/-! ## Records and upstream responses -/

structure Author where
  username : Str
  discriminator : Str
  userId : Str
  globalName : Option Str
deriving DecidableEq

structure Attachment where
  name : Str
  url : Str
deriving DecidableEq

/-- A record (Discord message) as consumed by the formatter and the archive
operations.  Timestamps are carried in their already-formatted textual form
(`formatTimestamp` output); their exact rendering is uninterpreted here. -/
structure Message where
  id : Str
  author : Author
  createdTs : Str
  editedTs : Option Str
  content : Str
  attachments : List Attachment
  referenceMessageId : Option Str
  channelId : Str
  channelName : Option Str
  guildId : Str
deriving DecidableEq

/-- Upstream data fetched for one mention user id: `users.fetch` plus the
optional `guild.members.fetch` display name (`none` = the fetch threw). -/
structure MentionInfo where
  username : Str
  discriminator : Str
  globalName : Option Str
  memberDisplayName : Option Str

/-- Responses of the upstream queries `formatMessageMarkdown` performs:
the author's member display name (`none` = `guild.members.fetch` threw),
whether fetching the referenced channel/message succeeded, and the data
for each mention user id (`none` = the fetch threw). -/
structure Upstream where
  memberDisplayName : Option Str
  referenceFetchOk : Bool
  mentionInfo : Str → Option MentionInfo

/-- `member.displayName || globalName || username` with the member fetch
possibly having thrown. -/
def displayNameFrom (memberDN : Option Str) (globalName : Option Str)
    (username : Str) : Str :=
  match memberDN with
  | none => jsOrStr (optStr globalName) username
  | some dn => jsOrStr dn (jsOrStr (optStr globalName) username)

/-! ## `resolveUserMentions` -/

/-- Match of `/<@!?(\d+)>/` at the head of the string: the full match text
and the captured user id. -/
def parseMentionAt (s : Str) : Option (Str × Str) :=
  match s with
  | '<' :: '@' :: r =>
    let bang := r.head? == some '!'
    let r2 := if bang then r.tail else r
    let ds := r2.takeWhile isDigitCh
    let rest := r2.drop ds.length
    if !ds.isEmpty && rest.head? == some '>' then
      some ('<' :: '@' :: ((if bang then ['!'] else []) ++ ds ++ ['>']), ds)
    else none
  | _ => none

/-- Scan for `mentionMatches`: the counter is the number of characters of a
found match still to be skipped. -/
def mentionMatchesAux : Nat → Str → List (Str × Str)
  | _, [] => []
  | k + 1, _ :: cs => mentionMatchesAux k cs
  | 0, c :: cs =>
    match parseMentionAt (c :: cs) with
    | some m => m :: mentionMatchesAux (m.1.length - 1) cs
    | none => mentionMatchesAux 0 cs

/-- `content.matchAll(/<@!?(\d+)>/g)`: all non-overlapping matches, left to
right, as (match text, user id) pairs. -/
def mentionMatches (s : Str) : List (Str × Str) := mentionMatchesAux 0 s

/-- The replacement text for a resolved mention. -/
def fullMention (userId : Str) (mi : MentionInfo) : Str :=
  '@' :: (displayNameFrom mi.memberDisplayName mi.globalName mi.username ++
    " (".data ++ mi.username ++ "#".data ++ mi.discriminator ++ " ".data ++
    userId ++ ")".data)

/-- The replacement text when resolving the mention user threw. -/
def unknownMention (userId : Str) : Str :=
  "@Unknown-User(".data ++ userId ++ ")".data

/-- `resolveUserMentions(content, msg)`: guarded by `content.includes('<@')`;
each collected match is then replaced (first occurrence in the current
result) by the resolved or unknown-user form. -/
def resolveUserMentions (env : Upstream) (content : Str) : Str :=
  if content.isEmpty || !occursB "<@".data content then content
  else
    (mentionMatches content).foldl
      (fun res m =>
        match env.mentionInfo m.2 with
        | some mi => replaceFirst m.1 (fullMention m.2 mi) res
        | none => replaceFirst m.1 (unknownMention m.2) res)
      content

/-! ## `formatMessageMarkdown` -/

/-- The author metadata line. -/
def authorLine (env : Upstream) (msg : Message) : Str :=
  metadataAuthor (displayNameFrom env.memberDisplayName msg.author.globalName
    msg.author.username) msg.author.username msg.author.discriminator
    msg.author.userId

/-- The edited-marker fragment (present iff `editedAt` is non-null). -/
def editedPart (msg : Message) : Str :=
  match msg.editedTs with
  | some e => '\n' :: metadataModified e
  | none => []

/-- The reply-reference fragment: link form if fetching the referenced
message succeeded, deleted-placeholder form otherwise. -/
def referencePart (env : Upstream) (msg : Message) : Str :=
  match msg.referenceMessageId with
  | some refId =>
    if env.referenceFetchOk then '\n' :: replyReference refId
    else '\n' :: deletedMessageReference refId
  | none => []

/-- The fenced body (empty for empty content). -/
def bodyPart (env : Upstream) (msg : Message) : Str :=
  match sanitize (resolveUserMentions env msg.content) with
  | none => []
  | some fc =>
    if fc.2.isEmpty then []
    else fc.1 ++ "txt".data ++ '\n' :: (fc.2 ++ '\n' :: fc.1)

/-- The attachments section (present iff attachments are non-empty). -/
def attachmentsPart (msg : Message) : Str :=
  if msg.attachments.isEmpty then []
  else "\n\n**Attachments:**\n\n".data ++
    List.intercalate ['\n'] (msg.attachments.map (fun a => attachmentItem a.name a.url))

/-- Everything of the rendered block after its marker line. -/
def formatTail (env : Upstream) (msg : Message) : Str :=
  '\n' :: (authorLine env msg ++ '\n' :: (metadataTimestamp msg.createdTs ++
    editedPart msg ++ referencePart env msg ++ '\n' :: '\n' ::
      (bodyPart env msg ++ attachmentsPart msg ++ ['\n'])))

/-- `formatMessageMarkdown(msg)`: the full rendered block
`\n{marker}\n\n{author}\n{ts}{edited}{reference}\n\n{body}{atts}\n`. -/
def formatMessageMarkdown (env : Upstream) (msg : Message) : Str :=
  '\n' :: (markerLineOf msg.id ++ formatTail env msg)

/-! ## ArchiveDocument operations -/

/-- The once-per-file header written by `writeMessage`. -/
def headerFor (msg : Message) : Str :=
  "# ".data ++ jsOrStr (optStr msg.channelName) ("Channel ".data ++ msg.channelId) ++
    "\n\nOriginal conversation link: <https://discord.com/channels/".data ++
    msg.guildId ++ "/".data ++ msg.channelId ++ "/".data ++ msg.id ++ ">\n".data

/-- `writeMessage(msg)` (insert): `existing` is the current file content
(`[]` = absent or empty file).  Returns the new file content. -/
def writeMessage (env : Upstream) (existing : Str) (msg : Message) : Str :=
  if truthyStr existing && containsMessage existing msg.id then existing
  else
    existing ++ (if truthyStr existing then [] else headerFor msg) ++
      formatMessageMarkdown env msg

/-! ## The block regex (`messageBlockRegex`) as a scanner

`messageBlockRegex(id)` is
`(^|\n)(M\n(?:(?!\nP ).)*?)(?=\nP |$)` with `gs` flags, `M` the escaped
marker `## Message id` and `P ` the escaped marker prefix `## Message` plus
a space.  A match therefore starts at position 0 or after a newline (the
newline being part of the match), requires the exact marker line, and its
lazily-matched body extends to just before the first later occurrence of
`"\n## Message "` (kept by the lookahead), or to the end of the string. -/

/-- One fragment of the scan of a file by `messageBlockRegex(d)`: either a
character that is part of no match, or a whole match (`leadNl` records
whether the match consumed a leading newline, i.e. was not at position 0). -/
inductive BlockPart where
  | lit (c : Char)
  | hit (leadNl : Bool)
deriving DecidableEq

/-- Whether a part is a match. -/
def BlockPart.isHit : BlockPart → Bool
  | .hit _ => true
  | .lit _ => false

/-- The scanner state machine.  `none`: outside any match, looking for a
newline followed by the exact marker line.  `some (k+1)`: inside a match,
with `k+1` marker-line characters still to consume.  `some 0`: inside a
match body, which extends (lazily, as the regex's lookahead dictates) up to
the next occurrence of `mstart` or the end of the string; at that occurrence
the scanner resumes exactly at the newline. -/
def scanParts (d : Str) : Option Nat → Str → List BlockPart
  | _, [] => []
  | none, c :: cs =>
    if c = '\n' && isPfx (markerLineOf d) cs then
      BlockPart.hit true :: scanParts d (some (markerLineOf d).length) cs
    else BlockPart.lit c :: scanParts d none cs
  | some (k + 1), _ :: cs => scanParts d (some k) cs
  | some 0, c :: cs =>
    if isPfx mstart (c :: cs) then
      if c = '\n' && isPfx (markerLineOf d) cs then
        BlockPart.hit true :: scanParts d (some (markerLineOf d).length) cs
      else BlockPart.lit c :: scanParts d none cs
    else scanParts d (some 0) cs

/-- Full scan including the position-0 case (`^` of `(^|\n)`). -/
def parts (d : Str) (s : Str) : List BlockPart :=
  if isPfx (markerLineOf d) s then
    BlockPart.hit false :: scanParts d (some (markerLineOf d).length) s
  else scanParts d none s

/-- Render a scan back to a string, replacing each match: a position-0 match
by `r0`, a newline-led match (whose match text includes the newline) by
`rn`. -/
def renderParts (r0 rn : Str) : List BlockPart → Str
  | [] => []
  | BlockPart.lit c :: t => c :: renderParts r0 rn t
  | BlockPart.hit false :: t => r0 ++ renderParts r0 rn t
  | BlockPart.hit true :: t => rn ++ renderParts r0 rn t

/-- `content.replace(messageBlockRegex(d), repl)` with the two replacement
shapes the program uses. -/
def scanRepl (d r0 rn : Str) (s : Str) : Str := renderParts r0 rn (parts d s)

/-- Number of matches of `messageBlockRegex(d)` in `s`. -/
def countBlocks (d s : Str) : Nat := ((parts d s).filter BlockPart.isHit).length

/-- `messageBlockRegex(d).test(content)`. -/
def hasBlock (d s : Str) : Bool := countBlocks d s != 0

/-- `deleteMessage(channelId, messageId)` on a given file content
(`[]` = absent file, which returns immediately). -/
def deleteMessage (content : Str) (messageId : Str) : Str :=
  if !truthyStr content then content
  else if !hasBlock messageId content then content
  else
    trimTrailingNewlines
      (replaceAllSub (replyReference messageId) (deletedMessageReference messageId)
        (scanRepl messageId [] [] content))

/-- `if (!msg.editedAt) msg.editedAt = new Date()`. -/
def setEditedNow (msg : Message) (now : Str) : Message :=
  match msg.editedTs with
  | none => ⟨msg.id, msg.author, msg.createdTs, some now, msg.content,
      msg.attachments, msg.referenceMessageId, msg.channelId, msg.channelName,
      msg.guildId⟩
  | some _ => msg

/-- `updateMessage(msg)` on a given file content.  Falls back to
`writeMessage` when the file or the block is missing; otherwise replaces the
matched block span, keeping the leading-newline structure, and normalizes
the trailing newline run. -/
def updateMessage (env : Upstream) (now : Str) (content : Str) (msg : Message) : Str :=
  if !truthyStr content then writeMessage env content msg
  else if !hasBlock msg.id content then writeMessage env content msg
  else
    trimTrailingNewlines
      (scanRepl msg.id (jsTrimStart (formatMessageMarkdown env (setEditedNow msg now)))
        ('\n' :: jsTrimStart (formatMessageMarkdown env (setEditedNow msg now)))
        content)

/-! ## SyncEngine backfill: `exportChannelMessages` -/

/-- The observable behaviour of one `exportChannelMessages` call:
the records passed to `writeMessage` in call order, and the arguments of the
`saveCheckpoint` calls made. -/
structure ExportResult where
  written : List Message
  saved : List Str
deriving DecidableEq

/-- `exportChannelMessages(channel, checkpoint)` given the fetched page
(`fetched`, in upstream newest-first delivery order). -/
def exportChannelMessages (fetched : List Message) (checkpoint : Option Str) :
    ExportResult :=
  if fetched.isEmpty then ⟨[], []⟩
  else
    let list := fetched.reverse.filter
      (fun m => !truthyOpt checkpoint || jsGtB m.id (optStr checkpoint))
    let latest := list.foldl
      (fun acc m => if !truthyOpt acc || jsGtB m.id (optStr acc) then some m.id else acc)
      checkpoint
    ⟨list, if truthyOpt latest then [optStr latest] else []⟩

/-! ## Structured archive files

A well-formed archive file is a header followed by rendered blocks; this is
the specification-side view against which the scanning operations are
proved. -/

/-- One block: its id and everything after its marker line up to the next
block (or end of file). -/
structure Blk where
  id : Str
  rest : Str

/-- The rendered text of a block, including its leading newline. -/
def renderBlk (b : Blk) : Str := '\n' :: (markerLineOf b.id ++ b.rest)

/-- A file: header text followed by rendered blocks. -/
def mkFile (hdr : Str) (bs : List Blk) : Str := hdr ++ (bs.map renderBlk).flatten

/-- Well-formedness of a block body with respect to the scanner: it contains
no block-start pattern and does not begin with the marker prefix (which
would fuse with the preceding marker line's newline). -/
def wfRest (s : Str) : Bool := !occursB mstart s && !isPfx "## Message ".data s

/-- Well-formedness of a header. -/
def wfHdr (s : Str) : Bool := !occursB mstart s && !isPfx "## Message ".data s

/-! ## Fixtures for witnesses and counterexamples -/

/-- An upstream with no member info, successful reference fetches and no
resolvable mention users. -/
def envPlain : Upstream := ⟨none, true, fun _ => none⟩

/-- Upstream whose member fetch returned display name Alice. -/
def envAlice : Upstream := ⟨some "Alice".data, true, fun _ => none⟩

/-- Upstream whose member fetch returned display name Bob. -/
def envBob : Upstream := ⟨some "Bob".data, true, fun _ => none⟩

/-- A small author fixture. -/
def authorU : Author := ⟨"u".data, "0".data, "7".data, none⟩

/-- Record fixture for claim C1's counterexample: id `12`. -/
def msgC1 : Message :=
  ⟨"12".data, authorU, "T".data, none, "hi".data, [], none, "9".data, none, "g".data⟩

/-- Record fixture for claim C5's counterexample: its body starts a line
with the block-start marker text for id `42`. -/
def msgC5 : Message :=
  ⟨"1".data, authorU, "T".data, none, "## Message 42\nboo".data, [], none,
    "9".data, none, "g".data⟩

/-- Record fixture for claim C8's counterexample: a reply whose reference
resolves, rendered under two member-fetch responses. -/
def msgC8 : Message :=
  ⟨"100".data, authorU, "T".data, none, "hi".data, [], some "50".data,
    "9".data, none, "g".data⟩

/-- Record fixture for claim C4: the update applied to block `2`. -/
def msgC4 : Message :=
  ⟨"2".data, authorU, "T".data, some "E".data, [], [], none, "9".data, none,
    "g".data⟩

/-- File fixture for claim C4's counterexample: header and blocks 1, 2, 3,
with block 3 ending in a newline run at end of file. -/
def fileC4 : Str :=
  "H\n## Message 1\na\n## Message 2\nb\n## Message 3\nc\n\n".data

/-- Block 3's full span (with leading newline) in `fileC4`. -/
def blkC4 : Str := "\n## Message 3\nc\n\n".data

/-- Block fixture for claim C3's witness: block `1` carries a link-form
reply reference to block `2` in its body. -/
def blkW1 : Blk := ⟨"1".data, "a in reply to [2](#message-2)\n".data⟩

/-- Block fixture for claim C3's witness: block `2`, the one deleted. -/
def blkW2 : Blk := ⟨"2".data, "b\n".data⟩

/-- Block fixture for claim C4's witness: block `1` (sibling A). -/
def blkA4 : Blk := ⟨"1".data, "a\n".data⟩

/-- Block fixture for claim C4's witness: block `2` (the updated B). -/
def blkB4 : Blk := ⟨"2".data, "b\n".data⟩

/-- Block fixture for claim C4's witness: block `3` (sibling C). -/
def blkD4 : Blk := ⟨"3".data, "c\n".data⟩

/-- Record fixture for claim C7: id 30. -/
def msg30 : Message :=
  ⟨"30".data, authorU, "T".data, none, [], [], none, "9".data, none, "g".data⟩

/-- Record fixture for claim C7: id 20. -/
def msg20 : Message :=
  ⟨"20".data, authorU, "T".data, none, [], [], none, "9".data, none, "g".data⟩

/-- A fetched page for claim C7's witness, in newest-first delivery order. -/
def fetchedC7 : List Message := [msg30, msg20]

/-! # Theorems -/

/-! ## Prefix and substring toolkit -/

theorem isPfx_iff (p s : Str) : isPfx p s = true ↔ ∃ r, s = p ++ r := by
  induction p generalizing s with
  | nil => simp [isPfx]
  | cons a as ih =>
    cases s with
    | nil => simp [isPfx]
    | cons b bs =>
      simp only [isPfx, Bool.and_eq_true, beq_iff_eq, ih]
      constructor
      · rintro ⟨rfl, r, rfl⟩
        exact ⟨r, rfl⟩
      · rintro ⟨r, h⟩
        cases h
        exact ⟨rfl, r, rfl⟩

theorem isPfx_refl (p : Str) : isPfx p p = true := by
  rw [isPfx_iff]
  exact ⟨[], by simp⟩

theorem isPfx_append (p r : Str) : isPfx p (p ++ r) = true := by
  rw [isPfx_iff]
  exact ⟨r, rfl⟩

theorem isPfx_length_le {p s : Str} (h : isPfx p s = true) : p.length ≤ s.length := by
  rcases (isPfx_iff p s).mp h with ⟨r, rfl⟩
  simp

theorem occursB_iff (pat s : Str) :
    occursB pat s = true ↔ ∃ x y, s = x ++ pat ++ y := by
  induction s with
  | nil =>
    simp only [occursB, isPfx_iff]
    constructor
    · rintro ⟨r, h⟩
      exact ⟨[], r, by simpa using h⟩
    · rintro ⟨x, y, h⟩
      refine ⟨y, ?_⟩
      rcases List.append_eq_nil.mp h.symm with ⟨h1, h2⟩
      rcases List.append_eq_nil.mp h1 with ⟨rfl, rfl⟩
      simp [h2]
  | cons c cs ih =>
    simp only [occursB, Bool.or_eq_true, isPfx_iff, ih]
    constructor
    · rintro (⟨r, h⟩ | ⟨x, y, h⟩)
      · exact ⟨[], r, by simpa using h⟩
      · exact ⟨c :: x, y, by simp [h]⟩
    · rintro ⟨x, y, h⟩
      cases x with
      | nil => exact Or.inl ⟨y, by simpa using h⟩
      | cons a x' =>
        simp only [List.cons_append, List.cons.injEq] at h
        exact Or.inr ⟨x', y, h.2⟩

theorem occursB_of_isPfx {pat s : Str} (h : isPfx pat s = true) :
    occursB pat s = true := by
  rcases (isPfx_iff pat s).mp h with ⟨r, rfl⟩
  exact (occursB_iff pat (pat ++ r)).mpr ⟨[], r, by simp⟩

theorem occursB_append_left {pat s : Str} (t : Str) (h : occursB pat s = true) :
    occursB pat (s ++ t) = true := by
  rcases (occursB_iff pat s).mp h with ⟨x, y, rfl⟩
  exact (occursB_iff _ _).mpr ⟨x, y ++ t, by simp⟩

theorem occursB_append_right {pat t : Str} (s : Str) (h : occursB pat t = true) :
    occursB pat (s ++ t) = true := by
  rcases (occursB_iff pat t).mp h with ⟨x, y, rfl⟩
  exact (occursB_iff _ _).mpr ⟨s ++ x, y, by simp⟩

theorem not_occursB_left {pat s t : Str} (h : occursB pat (s ++ t) = false) :
    occursB pat s = false := by
  cases hs : occursB pat s with
  | false => rfl
  | true => rw [occursB_append_left t hs] at h; exact absurd h (by simp)

theorem not_occursB_right {pat s t : Str} (h : occursB pat (s ++ t) = false) :
    occursB pat t = false := by
  cases ht : occursB pat t with
  | false => rfl
  | true => rw [occursB_append_right s ht] at h; exact absurd h (by simp)

theorem occursB_drop {pat s : Str} {n : Nat} (h : occursB pat (s.drop n) = true) :
    occursB pat s = true := by
  have hsplit : s = s.take n ++ s.drop n := (List.take_append_drop n s).symm
  rw [hsplit]
  exact occursB_append_right _ h

theorem head_mem_of_occursB {c : Char} {p s : Str}
    (h : occursB (c :: p) s = true) : c ∈ s := by
  rcases (occursB_iff _ s).mp h with ⟨x, y, rfl⟩
  simp

theorem isPfx_append_of_le {p x y : Str} (h : isPfx p (x ++ y) = true)
    (hlen : p.length ≤ x.length) : isPfx p x = true := by
  rcases (isPfx_iff _ _).mp h with ⟨r, hr⟩
  rcases List.append_eq_append_iff.mp hr.symm with ⟨e, he1, he2⟩ | ⟨e, he1, he2⟩
  · rw [isPfx_iff]
    exact ⟨e, he1⟩
  · cases e with
    | nil => rw [he1, List.append_nil]; exact isPfx_refl x
    | cons a as =>
      have := congrArg List.length he1
      simp at this
      omega

theorem isPfx_append_of_gt {p x y : Str} (h : isPfx p (x ++ y) = true)
    (hlen : x.length < p.length) :
    isPfx x p = true ∧ isPfx (p.drop x.length) y = true := by
  rcases (isPfx_iff _ _).mp h with ⟨r, hr⟩
  rcases List.append_eq_append_iff.mp hr.symm with ⟨e, he1, he2⟩ | ⟨e, he1, he2⟩
  · have := congrArg List.length he1
    simp at this
    omega
  · refine ⟨(isPfx_iff _ _).mpr ⟨e, he1⟩, ?_⟩
    rw [he1, List.drop_left, isPfx_iff]
    exact ⟨r, he2⟩

/-! ## JS string order -/

theorem jsLtB_asymm {a b : Str} (h : jsLtB a b = true) : jsLtB b a = false := by
  induction a generalizing b with
  | nil =>
    cases b with
    | nil => simp [jsLtB]
    | cons x xs => simp [jsLtB]
  | cons x xs ih =>
    cases b with
    | nil => simp [jsLtB] at h
    | cons y ys =>
      simp only [jsLtB] at h ⊢
      rcases lt_trichotomy x y with hxy | hxy | hxy
      · simp [hxy, lt_asymm hxy, not_lt_of_gt hxy]
      · subst hxy
        simp only [lt_irrefl, if_false] at h ⊢
        exact ih h
      · simp [hxy, lt_asymm hxy, not_lt_of_gt hxy] at h

theorem jsLtB_trans {a b c : Str} (h1 : jsLtB a b = true) (h2 : jsLtB b c = true) :
    jsLtB a c = true := by
  induction a generalizing b c with
  | nil =>
    cases c with
    | nil =>
      cases b with
      | nil => exact h1
      | cons y ys => simp [jsLtB] at h2
    | cons z zs => simp [jsLtB]
  | cons x xs ih =>
    cases b with
    | nil => simp [jsLtB] at h1
    | cons y ys =>
      cases c with
      | nil => simp [jsLtB] at h2
      | cons z zs =>
        simp only [jsLtB] at h1 h2 ⊢
        rcases lt_trichotomy x y with hxy | hxy | hxy
        · rcases lt_trichotomy y z with hyz | hyz | hyz
          · simp [lt_trans hxy hyz]
          · subst hyz; simp [hxy]
          · simp [hyz, lt_asymm hyz, not_lt_of_gt hyz] at h2
        · subst hxy
          simp only [lt_irrefl, if_false] at h1
          rcases lt_trichotomy x z with hyz | hyz | hyz
          · simp [hyz]
          · subst hyz
            simp only [lt_irrefl, if_false] at h2 ⊢
            exact ih h1 h2
          · simp [hyz, lt_asymm hyz, not_lt_of_gt hyz] at h2
        · simp [hxy, lt_asymm hxy, not_lt_of_gt hxy] at h1

theorem jsLtB_trichotomy (a b : Str) :
    jsLtB a b = true ∨ a = b ∨ jsLtB b a = true := by
  induction a generalizing b with
  | nil =>
    cases b with
    | nil => exact Or.inr (Or.inl rfl)
    | cons y ys => exact Or.inl (by simp [jsLtB])
  | cons x xs ih =>
    cases b with
    | nil => exact Or.inr (Or.inr (by simp [jsLtB]))
    | cons y ys =>
      rcases lt_trichotomy x y with hxy | hxy | hxy
      · exact Or.inl (by simp [jsLtB, hxy])
      · subst hxy
        rcases ih ys with h | h | h
        · exact Or.inl (by simp [jsLtB, h])
        · exact Or.inr (Or.inl (by rw [h]))
        · exact Or.inr (Or.inr (by simp [jsLtB, h]))
      · exact Or.inr (Or.inr (by simp [jsLtB, hxy]))

theorem jsGeB_nil (a : Str) : jsGeB a [] = true := by
  cases a <;> simp [jsGeB, jsLtB]

theorem jsGeB_iff (a b : Str) : jsGeB a b = true ↔ jsLtB a b = false := by
  simp [jsGeB]

theorem jsGeB_trans {a b c : Str} (h1 : jsGeB a b = true) (h2 : jsGeB b c = true) :
    jsGeB a c = true := by
  rw [jsGeB_iff] at h1 h2 ⊢
  cases hac : jsLtB a c with
  | false => rfl
  | true =>
    exfalso
    rcases jsLtB_trichotomy a b with h | h | h
    · exact absurd h (by simp [h1])
    · subst h; exact absurd hac (by simp [h2])
    · exact absurd (jsLtB_trans h hac) (by simp [h2])

theorem jsGeB_total (a b : Str) : jsGeB a b = true ∨ jsGeB b a = true := by
  rcases jsLtB_trichotomy a b with h | h | h
  · exact Or.inr ((jsGeB_iff b a).mpr (jsLtB_asymm h))
  · subst h
    left
    rw [jsGeB_iff]
    cases hab : jsLtB a a with
    | false => rfl
    | true => exact absurd (jsLtB_asymm hab) (by simp [hab])
  · exact Or.inl ((jsGeB_iff a b).mpr (jsLtB_asymm h))

theorem jsGeB_refl (a : Str) : jsGeB a a = true := by
  rcases jsGeB_total a a with h | h
  · exact h
  · exact h

/-! ## Claim C2: checkpoint monotonicity -/

theorem saveCheckpointEntry_lexMax (v c : Str) :
    saveCheckpointEntry (some v) c = some (lexMax v c) := by
  by_cases hv : v = []
  · subst hv
    simp only [saveCheckpointEntry, truthyStr, List.isEmpty_nil, Bool.not_true,
      Bool.false_and, if_false, lexMax]
    cases hc : jsGeB [] c with
    | false => simp
    | true =>
      rw [jsGeB_iff] at hc
      cases c with
      | nil => simp
      | cons d ds => simp [jsLtB] at hc
  · have ht : truthyStr v = true := by
      simp [truthyStr, List.isEmpty_iff, hv]
    simp only [saveCheckpointEntry, ht, Bool.true_and, lexMax]
    cases hge : jsGeB v c <;> simp

theorem advanceSeq_some (v : Str) (ids : List Str) :
    advanceSeq (some v) ids = some (ids.foldl lexMax v) := by
  induction ids generalizing v with
  | nil => rfl
  | cons c cs ih =>
    simp only [advanceSeq, List.foldl_cons] at *
    rw [saveCheckpointEntry_lexMax, ih]

theorem lexMax_ge_left (a b : Str) : jsGeB (lexMax a b) a = true := by
  unfold lexMax
  cases h : jsGeB a b with
  | true => simp [h, jsGeB_refl]
  | false =>
    simp only [h, Bool.false_eq_true, if_false]
    rcases jsGeB_total a b with h2 | h2
    · exact absurd h2 (by simp [h])
    · exact h2

theorem lexMax_ge_right (a b : Str) : jsGeB (lexMax a b) b = true := by
  unfold lexMax
  cases h : jsGeB a b with
  | true => simp [h]
  | false => simp [h, jsGeB_refl]

theorem foldl_lexMax_ge (v : Str) (ids : List Str) :
    jsGeB (ids.foldl lexMax v) v = true ∧
      ∀ c ∈ ids, jsGeB (ids.foldl lexMax v) c = true := by
  induction ids generalizing v with
  | nil =>
    refine ⟨?_, by simp⟩
    exact jsGeB_refl v
  | cons c cs ih =>
    simp only [List.foldl_cons, List.mem_cons]
    refine ⟨jsGeB_trans (ih (lexMax v c)).1 (lexMax_ge_left v c), ?_⟩
    rintro d (rfl | hd)
    · exact jsGeB_trans (ih (lexMax v d)).1 (lexMax_ge_right v d)
    · exact (ih (lexMax v c)).2 d hd

theorem foldl_lexMax_mem (v : Str) (ids : List Str) :
    ids.foldl lexMax v = v ∨ ids.foldl lexMax v ∈ ids := by
  induction ids generalizing v with
  | nil => exact Or.inl rfl
  | cons c cs ih =>
    simp only [List.foldl_cons, List.mem_cons]
    rcases ih (lexMax v c) with h | h
    · rw [h]
      unfold lexMax
      cases hg : jsGeB v c with
      | true => simp
      | false => simp
    · exact Or.inr (Or.inr h)

/-- Claim C2 (amended): for any sequence of `advance` calls on one target the
stored value is non-decreasing at every step and ends at the maximum of the
candidates — but in JS string (lexicographic) order, not in the canonical
numeric order of ids. -/
theorem C2_checkpoint_lex_monotone (c : Str) (cs : List Str) :
    (advanceSeq none (c :: cs) = some (cs.foldl lexMax c)) ∧
    (jsGeB (cs.foldl lexMax c) c = true ∧ ∀ d ∈ cs, jsGeB (cs.foldl lexMax c) d = true) ∧
    (∀ (v cand : Str), ∃ w, saveCheckpointEntry (some v) cand = some w ∧ jsGeB w v = true) := by
  refine ⟨?_, foldl_lexMax_ge c cs, ?_⟩
  · show advanceSeq (saveCheckpointEntry none c) cs = _
    show advanceSeq (some c) cs = _
    exact advanceSeq_some c cs
  · intro v cand
    refine ⟨lexMax v cand, saveCheckpointEntry_lexMax v cand, lexMax_ge_left v cand⟩

/-- Claim C2 witness: the amended theorem applied at the concrete sequence
`"5", "3", "7"`. -/
theorem C2_checkpoint_lex_monotone_witness :
    advanceSeq none ["5".data, "3".data, "7".data] =
      some (["3".data, "7".data].foldl lexMax "5".data) ∧
    ∀ d ∈ ["3".data, "7".data],
      jsGeB (["3".data, "7".data].foldl lexMax "5".data) d = true := by
  have h := C2_checkpoint_lex_monotone "5".data ["3".data, "7".data]
  exact ⟨h.1, h.2.1.2⟩

/-- Claim C2 counterexample: advancing with `"9"` and then `"10"` leaves the
checkpoint at `"9"`, although `"10"` is the numeric maximum — the code
compares unpadded id strings lexicographically, which the claim rules out. -/
theorem C2_counterexample :
    advanceSeq none ["9".data, "10".data] = some "9".data ∧
    decimalValue "9".data < decimalValue "10".data ∧ "9".data ≠ "10".data := by
  refine ⟨by decide, by decide, by decide⟩

/-! ## Claim C9: checkpoint persistence -/

/-- Claim C9 (amended): every `advance` that changes the store performs exactly
one direct write of the full serialized mapping to the checkpoint path; no
rename and no write to any other (temporary) location ever occurs. -/
theorem C9_direct_write (cps : List (Str × Str)) (channelId lastId : Str) :
    (saveCheckpointActions cps channelId lastId = [] ∨
      saveCheckpointActions cps channelId lastId =
        [FsAction.write checkpointPath (stringifyCheckpoints (setKey cps channelId lastId))]) ∧
    (∀ a ∈ saveCheckpointActions cps channelId lastId,
      a.isRename = false ∧ ∃ c, a = FsAction.write checkpointPath c) := by
  unfold saveCheckpointActions
  cases h : jsLookup cps channelId with
  | none =>
    refine ⟨Or.inr rfl, ?_⟩
    intro a ha
    simp only [writeJSONActions, List.mem_singleton] at ha
    subst ha
    exact ⟨rfl, _, rfl⟩
  | some v =>
    cases hc : truthyStr v && jsGeB v lastId with
    | true => exact ⟨Or.inl (by simp [hc]), by simp [hc]⟩
    | false =>
      refine ⟨Or.inr (by simp [hc, writeJSONActions]), ?_⟩
      intro a ha
      simp only [hc, Bool.false_eq_true, if_false, writeJSONActions,
        List.mem_singleton] at ha
      subst ha
      exact ⟨rfl, _, rfl⟩

/-- Claim C9 witness: the amended theorem applied at a concrete store and
advance call. -/
theorem C9_direct_write_witness :
    (saveCheckpointActions [("a".data, "2".data)] "a".data "3".data = [] ∨
      saveCheckpointActions [("a".data, "2".data)] "a".data "3".data =
        [FsAction.write checkpointPath
          (stringifyCheckpoints (setKey [("a".data, "2".data)] "a".data "3".data))]) ∧
    (∀ a ∈ saveCheckpointActions [("a".data, "2".data)] "a".data "3".data,
      a.isRename = false ∧ ∃ c, a = FsAction.write checkpointPath c) :=
  C9_direct_write [("a".data, "2".data)] "a".data "3".data

/-- Claim C9 counterexample: a concrete `advance` on an empty store issues a
single `fs.writeFile` directly to the checkpoint path — there is no write to
a temporary location and no atomic rename/replace step, contrary to the
claimed write-temporary-then-replace behaviour. -/
theorem C9_counterexample :
    saveCheckpointActions [] "c".data "5".data =
      [FsAction.write checkpointPath (stringifyCheckpoints [("c".data, "5".data)])] ∧
    (saveCheckpointActions [] "c".data "5".data).all (fun a => !a.isRename) = true ∧
    (∀ a ∈ saveCheckpointActions [] "c".data "5".data,
      ∃ c, a = FsAction.write checkpointPath c ∧ c ≠ []) := by
  refine ⟨rfl, rfl, ?_⟩
  intro a ha
  simp only [saveCheckpointActions, jsLookup, writeJSONActions, List.mem_singleton] at ha
  subst ha
  exact ⟨_, rfl, by decide⟩

/-! ## Claim C10: tag filter -/

theorem filterMap_id_map_map {α β γ : Type} (l : List α) (f : α → Option β) (g : β → γ) :
    ((l.map (fun a => (f a).map g)).filterMap id) = (l.filterMap f).map g := by
  induction l with
  | nil => rfl
  | cons a t ih =>
    cases h : f a with
    | none => simp [List.filterMap_cons, h, ih]
    | some b => simp [List.filterMap_cons, h, ih]

/-- Claim C10: with an empty filter set every sub-target is in scope;
otherwise a sub-target is in scope iff one of its resolved label names
matches one filter token by case-insensitive bidirectional substring.
Hypotheses: filter tokens are non-empty and already lowercased (the config
pipeline trims, lowercases and drops empty tokens), and resolved tag names
are non-empty strings. -/
theorem C10_tag_filter (filterTags : List Str) (appliedTags : Option (List Str))
    (avail : Option (List (Str × Option Str)))
    (hf : ∀ f ∈ filterTags, lowerStr f = f ∧ f ≠ [])
    (hn : ∀ n ∈ resolvedTagNames appliedTags avail, n ≠ []) :
    (filterTags = [] → hasMatchingTag filterTags appliedTags avail = true) ∧
    (filterTags ≠ [] →
      (hasMatchingTag filterTags appliedTags avail = true ↔
        ∃ n ∈ resolvedTagNames appliedTags avail, ∃ f ∈ filterTags,
          (occursB (lowerStr f) (lowerStr n) = true ∨
            occursB (lowerStr n) (lowerStr f) = true))) := by
  constructor
  · intro h
    subst h
    simp [hasMatchingTag]
  · intro hne
    have hfe : filterTags.isEmpty = false := by
      simp [List.isEmpty_iff, hne]
    rcases avail with _ | av
    · simp [hasMatchingTag, hfe, resolvedTagNames]
    · rcases appliedTags with _ | tl
      · simp [hasMatchingTag, hfe, resolvedTagNames]
      · by_cases htl : tl = []
        · subst htl
          simp [hasMatchingTag, hfe, resolvedTagNames]
        · have htl' : tl.isEmpty = false := by simp [List.isEmpty_iff, htl]
          by_cases hav : av = []
          · subst hav
            simp [hasMatchingTag, hfe, htl', resolvedTagNames, List.find?_nil]
          · have hav' : av.isEmpty = false := by simp [List.isEmpty_iff, hav]
            have hres : resolvedTagNames (some tl) (some av) =
                tl.filterMap (fun tid => (av.find? (fun t => t.1 == tid)).bind (fun t => t.2)) := rfl
            have hnames :
                ((tl.map (fun tid =>
                  ((av.find? (fun t => t.1 == tid)).bind (fun t => t.2)).map lowerStr)).filterMap
                    id).filter (fun n => !n.isEmpty) =
                  (resolvedTagNames (some tl) (some av)).map lowerStr := by
              rw [filterMap_id_map_map, ← hres]
              rw [List.filter_eq_self]
              intro n hmem
              rcases List.mem_map.mp hmem with ⟨n0, hn0, rfl⟩
              have := hn n0 hn0
              simp [List.isEmpty_iff, lowerStr, this]
            show (if filterTags.isEmpty = true then true else _) = true ↔ _
            rw [if_neg (by simp [hfe])]
            simp only [htl', Bool.false_eq_true, if_false, hav', Bool.or_self]
            rw [hnames]
            simp only [List.any_eq_true, Bool.or_eq_true, List.mem_map]
            constructor
            · rintro ⟨n', ⟨n0, hn0, rfl⟩, f, hfmem, hmatch⟩
              refine ⟨n0, hn0, f, hfmem, ?_⟩
              rw [(hf f hfmem).1]
              exact hmatch
            · rintro ⟨n0, hn0, f, hfmem, hmatch⟩
              refine ⟨lowerStr n0, ⟨n0, hn0, rfl⟩, f, hfmem, ?_⟩
              rw [(hf f hfmem).1] at hmatch
              exact hmatch

/-- Claim C10 witness: the spec's own scenario.  Filter tokens
`bug`/`feature`; a sub-target labeled `Feature Request` is in scope, one
labeled `question` is not. -/
theorem C10_tag_filter_witness :
    hasMatchingTag ["bug".data, "feature".data] (some ["t1".data])
      (some [("t1".data, some "Feature Request".data)]) = true ∧
    hasMatchingTag ["bug".data, "feature".data] (some ["t2".data])
      (some [("t2".data, some "question".data)]) = false := by
  constructor
  · have h := C10_tag_filter ["bug".data, "feature".data] (some ["t1".data])
      (some [("t1".data, some "Feature Request".data)])
      (by intro f hf; fin_cases hf <;> exact ⟨by decide, by decide⟩)
      (by intro n hn; fin_cases hn; decide)
    rw [(h.2 (by decide))]
    exact ⟨"Feature Request".data, by decide, "feature".data, by decide,
      Or.inl (by decide)⟩
  · decide

/-! ## Claim C5: body sanitization -/

/-- Claim C5 (amended): `sanitize` returns the unchanged body together with
a backtick fence strictly longer than the longest backtick run in the body
(minimum length 3), so the body cannot close the code fence. -/
theorem C5_fence_exceeds_runs (s : Str) (h : s ≠ []) :
    sanitize s =
      some (List.replicate (max 3 (max 2 (longestBacktickRun s) + 1)) backtick, s) ∧
    longestBacktickRun s <
      (List.replicate (max 3 (max 2 (longestBacktickRun s) + 1)) backtick).length := by
  constructor
  · simp [sanitize, List.isEmpty_iff, h]
  · simp only [List.length_replicate]
    omega

/-- Claim C5 witness: the fence theorem applied to a body containing a
backtick run of length two. -/
theorem C5_fence_exceeds_runs_witness :
    sanitize "a``b".data =
      some (List.replicate (max 3 (max 2 (longestBacktickRun "a``b".data) + 1)) backtick,
        "a``b".data) ∧
    longestBacktickRun "a``b".data <
      (List.replicate (max 3 (max 2 (longestBacktickRun "a``b".data) + 1)) backtick).length :=
  C5_fence_exceeds_runs "a``b".data (by decide)

/-- Claim C5 counterexample: the body is only fenced, not escaped against
the block-start marker.  Record `msgC5` (id 1) has a body line
`## Message 42`; after inserting it into an empty file, `contains` reports
id 42 present and the block regex finds a block 42, so contains/update/
delete for the other id 42 do not behave as if the body were inert text. -/
theorem C5_counterexample :
    occursB (sectionMarker "42".data) msgC5.content = true ∧
    msgC5.id ≠ "42".data ∧
    containsMessage (writeMessage envPlain [] msgC5) "42".data = true ∧
    countBlocks "42".data (writeMessage envPlain [] msgC5) = 1 := by
  refine ⟨by decide, by decide, by decide, by decide⟩

/-! ## Claim C6: `contains` -/

/-- Claim C6 (amended): `contains(id)` returns true iff the start-marker
string for `id` occurs as a substring anywhere in the content — also when
it occurs only as a prefix of a longer id's marker, so a proper-prefix query
returns true, not false. -/
theorem C6_contains_iff_marker_substring (content msgId : Str) :
    containsMessage content msgId = true ↔
      ∃ x y, content = x ++ sectionMarker msgId ++ y :=
  occursB_iff (sectionMarker msgId) content

/-- Claim C6 counterexample: querying id `12` against a file whose only
block is for id `123` returns true, while no block-start marker for exactly
`12` is present (the block regex finds no block 12 and one block 123). -/
theorem C6_counterexample :
    containsMessage "# C\n\n## Message 123\nbody\n".data "12".data = true ∧
    countBlocks "12".data "# C\n\n## Message 123\nbody\n".data = 0 ∧
    countBlocks "123".data "# C\n\n## Message 123\nbody\n".data = 1 := by
  refine ⟨by decide, by decide, by decide⟩

/-! ## Claim C8: formatter purity -/

/-- Claim C8 (amended): `render` is a deterministic function of the record
and the responses of the upstream queries it itself performs (member
display-name fetch, reply-target fetch, mention-user fetches); and responses
to queries the record does not trigger cannot influence the output. -/
theorem C8_render_determined (env env' : Upstream) (msg : Message)
    (hm : env.memberDisplayName = env'.memberDisplayName)
    (hr : env.referenceFetchOk = env'.referenceFetchOk)
    (hu : ∀ uid, env.mentionInfo uid = env'.mentionInfo uid) :
    formatMessageMarkdown env msg = formatMessageMarkdown env' msg ∧
    (∀ (e1 e2 : Upstream) (m : Message), m.referenceMessageId = none →
      occursB "<@".data m.content = false →
      e1.memberDisplayName = none → e2.memberDisplayName = none →
      formatMessageMarkdown e1 m = formatMessageMarkdown e2 m) := by
  constructor
  · have henv : env = env' := by
      cases env with
      | mk a b f =>
        cases env' with
        | mk a' b' f' =>
          simp only at hm hr hu
          subst hm
          subst hr
          have : f = f' := funext hu
          rw [this]
    rw [henv]
  · intro e1 e2 m h1 h2 h3 h4
    have hmen : ∀ (e : Upstream), resolveUserMentions e m.content = m.content := by
      intro e
      unfold resolveUserMentions
      rw [h2]
      simp
    unfold formatMessageMarkdown formatTail authorLine referencePart bodyPart
    rw [h1, h3, h4, hmen e1, hmen e2]

/-- Claim C8 witness: the amended theorem applied at a concrete record and
two (equal-response) upstream environments. -/
theorem C8_render_determined_witness :
    formatMessageMarkdown envAlice msgC8 =
      formatMessageMarkdown ⟨some "Alice".data, true, fun _ => none⟩ msgC8 ∧
    (∀ (e1 e2 : Upstream) (m : Message), m.referenceMessageId = none →
      occursB "<@".data m.content = false →
      e1.memberDisplayName = none → e2.memberDisplayName = none →
      formatMessageMarkdown e1 m = formatMessageMarkdown e2 m) :=
  C8_render_determined envAlice ⟨some "Alice".data, true, fun _ => none⟩ msgC8
    rfl rfl (fun _ => rfl)

/-! ## Claim C7: backfill export -/

theorem truthyOpt_none : truthyOpt none = false := rfl

theorem truthyOpt_some (v : Str) : truthyOpt (some v) = truthyStr v := rfl

theorem truthyStr_ne {v : Str} (h : v ≠ []) : truthyStr v = true := by
  simp [truthyStr, List.isEmpty_iff, h]

/-- The `latest` fold never loses a value: a `none` result means an empty
fold from `none`. -/
theorem exportFold_none {l : List Message} {acc : Option Str}
    (h : l.foldl (fun acc m => if !truthyOpt acc || jsGtB m.id (optStr acc) then some m.id else acc) acc = none) :
    acc = none ∧ l = [] := by
  induction l generalizing acc with
  | nil => exact ⟨h, rfl⟩
  | cons m l' ih =>
    simp only [List.foldl_cons] at h
    rcases ih h with ⟨hacc, _⟩
    exfalso
    cases acc with
    | none => simp [truthyOpt_none] at hacc
    | some v =>
      by_cases ht : (!truthyOpt (some v) || jsGtB m.id (optStr (some v))) = true
      · rw [if_pos ht] at hacc
        cases hacc
      · rw [if_neg ht] at hacc
        cases hacc

/-- Characterization of the `latest` fold of `exportChannelMessages`. -/
theorem exportFold_char (l : List Message) (acc : Option Str)
    (hl : ∀ m ∈ l, m.id ≠ []) (hacc : acc = none ∨ ∃ w, acc = some w ∧ w ≠ []) :
    (l.foldl (fun acc m => if !truthyOpt acc || jsGtB m.id (optStr acc) then some m.id else acc) acc = acc ∧
      ∀ m ∈ l, ∀ v, acc = some v → jsGeB v m.id = true) ∨
    (∃ w, l.foldl (fun acc m => if !truthyOpt acc || jsGtB m.id (optStr acc) then some m.id else acc) acc = some w ∧
      w ∈ l.map (fun m => m.id) ∧ w ≠ [] ∧
      (∀ m ∈ l, jsGeB w m.id = true) ∧ (∀ v, acc = some v → jsGeB w v = true)) := by
  induction l generalizing acc with
  | nil => exact Or.inl ⟨rfl, by simp⟩
  | cons m l' ih =>
    have hmid : m.id ≠ [] := hl m (by simp)
    have hl' : ∀ m' ∈ l', m'.id ≠ [] := fun m' hm' => hl m' (by simp [hm'])
    rcases hacc with rfl | ⟨w0, rfl, hw0⟩
    · -- no checkpoint: the first record always replaces the accumulator
      simp only [List.foldl_cons, truthyOpt_none, Bool.not_false, Bool.true_or, if_true]
      rcases ih (some m.id) hl' (Or.inr ⟨m.id, rfl, hmid⟩) with ⟨heq, hbound⟩ | ⟨w, hw, hmem, hwne, hball, hau⟩
      · refine Or.inr ⟨m.id, heq, by simp, hmid, ?_, by simp⟩
        intro m' hm'
        rcases List.mem_cons.mp hm' with rfl | hm'
        · exact jsGeB_refl m'.id
        · exact hbound m' hm' m.id rfl
      · refine Or.inr ⟨w, hw, by simp [hmem], hwne, ?_, by simp⟩
        intro m' hm'
        rcases List.mem_cons.mp hm' with rfl | hm'
        · exact hau m'.id rfl
        · exact hball m' hm'
    · -- stored (truthy) checkpoint
      have hw0t : truthyStr w0 = true := truthyStr_ne hw0
      simp only [List.foldl_cons, truthyOpt_some, hw0t, Bool.not_true, Bool.false_or, optStr,
        Option.getD_some]
      cases hgt : jsGtB m.id w0 with
      | false =>
        -- keep the accumulator
        simp only [Bool.false_eq_true, if_false]
        have hge : jsGeB w0 m.id = true := by
          simp only [jsGeB, jsGtB] at hgt ⊢
          simp [hgt]
        rcases ih (some w0) hl' (Or.inr ⟨w0, rfl, hw0⟩) with ⟨heq, hbound⟩ | ⟨w, hw, hmem, hwne, hball, hau⟩
        · refine Or.inl ⟨heq, ?_⟩
          intro m' hm' v hv
          cases hv
          rcases List.mem_cons.mp hm' with rfl | hm'
          · exact hge
          · exact hbound m' hm' w0 rfl
        · refine Or.inr ⟨w, hw, by simp [hmem], hwne, ?_, ?_⟩
          · intro m' hm'
            rcases List.mem_cons.mp hm' with rfl | hm'
            · exact jsGeB_trans (hau w0 rfl) hge
            · exact hball m' hm'
          · intro v hv
            cases hv
            exact hau w0 rfl
      | true =>
        -- replace with m.id
        simp only [if_true]
        have hge : jsGeB m.id w0 = true := (jsGeB_iff _ _).mpr (jsLtB_asymm hgt)
        rcases ih (some m.id) hl' (Or.inr ⟨m.id, rfl, hmid⟩) with ⟨heq, hbound⟩ | ⟨w, hw, hmem, hwne, hball, hau⟩
        · refine Or.inr ⟨m.id, heq, by simp, hmid, ?_, ?_⟩
          · intro m' hm'
            rcases List.mem_cons.mp hm' with rfl | hm'
            · exact jsGeB_refl m'.id
            · exact hbound m' hm' m.id rfl
          · intro v hv
            cases hv
            exact hge
        · refine Or.inr ⟨w, hw, by simp [hmem], hwne, ?_, ?_⟩
          · intro m' hm'
            rcases List.mem_cons.mp hm' with rfl | hm'
            · exact hau m'.id rfl
            · exact hball m' hm'
          · intro v hv
            cases hv
            exact jsGeB_trans (hau m.id rfl) hge

/-- Claim C7: a backfill export processes the fetched page oldest-first
(reversing the newest-first delivery), inserts exactly the records whose id
is strictly greater than the stored checkpoint (all of them when there is no
checkpoint), stays within the page bound, and calls the checkpoint advance
exactly once, after the whole page, with the maximum id seen (the checkpoint
itself when nothing newer was fetched).  Order on ids is the JS string
comparison the code uses throughout. -/
theorem C7_export_backfill (fetched : List Message) (cp : Option Str) (maxFetch : Nat)
    (hne : fetched ≠ [])
    (hsort : fetched.Pairwise (fun a b => jsGtB a.id b.id = true))
    (hcp : cp = none ∨ ∃ v, cp = some v ∧ v ≠ [])
    (hids : ∀ m ∈ fetched, m.id ≠ [])
    (hlim : fetched.length ≤ maxFetch) :
    ((exportChannelMessages fetched cp).written.Pairwise
        (fun a b => jsGtB b.id a.id = true)) ∧
    (∀ m, m ∈ (exportChannelMessages fetched cp).written ↔
        m ∈ fetched ∧ (∀ v, cp = some v → jsGtB m.id v = true)) ∧
    ((exportChannelMessages fetched cp).written.length ≤ maxFetch) ∧
    (∃ L, (exportChannelMessages fetched cp).saved = [L] ∧
      (∀ m ∈ fetched, jsGeB L m.id = true) ∧
      (∀ v, cp = some v → jsGeB L v = true) ∧
      (L ∈ fetched.map (fun m => m.id) ∨ cp = some L)) := by
  have hfe : fetched.isEmpty = false := by simp [List.isEmpty_iff, hne]
  have hwr : (exportChannelMessages fetched cp).written =
      fetched.reverse.filter (fun m => !truthyOpt cp || jsGtB m.id (optStr cp)) := by
    unfold exportChannelMessages
    rw [if_neg (by simp [hfe])]
  have hpred : ∀ m : Message,
      ((!truthyOpt cp || jsGtB m.id (optStr cp)) = true) ↔
        (∀ v, cp = some v → jsGtB m.id v = true) := by
    intro m
    rcases hcp with rfl | ⟨v, rfl, hv⟩
    · simp [truthyOpt_none]
    · simp [truthyOpt_some, truthyStr_ne hv, optStr]
  refine ⟨?_, ?_, ?_, ?_⟩
  · rw [hwr]
    refine List.Pairwise.filter _ ?_
    rw [List.pairwise_reverse]
    exact hsort
  · intro m
    rw [hwr]
    simp only [List.mem_filter, List.mem_reverse]
    exact and_congr_right (fun _ => hpred m)
  · rw [hwr]
    calc (fetched.reverse.filter _).length ≤ fetched.reverse.length :=
          List.length_filter_le _ _
      _ = fetched.length := by simp
      _ ≤ maxFetch := hlim
  · have hsv : (exportChannelMessages fetched cp).saved =
        (if truthyOpt ((fetched.reverse.filter
            (fun m => !truthyOpt cp || jsGtB m.id (optStr cp))).foldl
              (fun acc m => if !truthyOpt acc || jsGtB m.id (optStr acc) then some m.id else acc)
              cp) then
          [optStr ((fetched.reverse.filter
            (fun m => !truthyOpt cp || jsGtB m.id (optStr cp))).foldl
              (fun acc m => if !truthyOpt acc || jsGtB m.id (optStr acc) then some m.id else acc)
              cp)]
        else []) := by
      unfold exportChannelMessages
      rw [if_neg (by simp [hfe])]
    have hlw : ∀ m ∈ fetched.reverse.filter
        (fun m => !truthyOpt cp || jsGtB m.id (optStr cp)), m.id ≠ [] := by
      intro m hm
      exact hids m (by
        have := List.mem_filter.mp hm
        exact List.mem_reverse.mp this.1)
    rcases exportFold_char _ cp hlw hcp with ⟨heq, hbound⟩ | ⟨w, hw, hmem, hwne, hball, hau⟩
    · -- fold kept the checkpoint: nothing passed the filter, or everything was older
      rcases hcp with rfl | ⟨v, rfl, hv⟩
      · -- impossible: with no checkpoint the filter keeps the whole page
        exfalso
        rcases exportFold_none heq with ⟨_, hemp⟩
        rcases fetched with _ | ⟨m0, rest⟩
        · exact hne rfl
        · have hmem0 : m0 ∈ (m0 :: rest).reverse.filter
              (fun m => !truthyOpt (none : Option Str) || jsGtB m.id (optStr none)) := by
            simp [truthyOpt_none]
          rw [hemp] at hmem0
          exact (List.mem_nil_iff m0).mp hmem0
      · refine ⟨v, ?_, ?_, ?_, Or.inr rfl⟩
        · rw [hsv, heq]
          simp [truthyOpt_some, truthyStr_ne hv, optStr]
        · intro m hm
          by_cases hmw : m ∈ fetched.reverse.filter
              (fun m => !truthyOpt (some v) || jsGtB m.id (optStr (some v)))
          · exact hbound m hmw v rfl
          · -- filtered out: its id is not greater than the checkpoint
            have : ¬ ((!truthyOpt (some v) || jsGtB m.id (optStr (some v))) = true) := by
              intro hp
              exact hmw (List.mem_filter.mpr ⟨List.mem_reverse.mpr hm, hp⟩)
            simp only [truthyOpt_some, truthyStr_ne hv, Bool.not_true, Bool.false_or,
              optStr, Option.getD_some] at this
            simp only [jsGeB, jsGtB] at this ⊢
            simp only [Bool.not_eq_true] at this
            simp [this]
        · intro v' hv'
          cases hv'
          exact jsGeB_refl v
    · refine ⟨w, ?_, ?_, ?_, ?_⟩
      · rw [hsv, hw]
        simp [truthyOpt_some, truthyStr_ne hwne, optStr]
      · intro m hm
        by_cases hmw : m ∈ fetched.reverse.filter
            (fun m => !truthyOpt cp || jsGtB m.id (optStr cp))
        · exact hball m hmw
        · have hp : ¬ ((!truthyOpt cp || jsGtB m.id (optStr cp)) = true) := by
            intro hp
            exact hmw (List.mem_filter.mpr ⟨List.mem_reverse.mpr hm, hp⟩)
          rcases hcp with rfl | ⟨v, rfl, hv⟩
          · simp [truthyOpt_none] at hp
          · simp only [truthyOpt_some, truthyStr_ne hv, Bool.not_true, Bool.false_or,
              optStr, Option.getD_some] at hp
            have hvm : jsGeB v m.id = true := by
              simp only [jsGeB, jsGtB] at hp ⊢
              simp only [Bool.not_eq_true] at hp
              simp [hp]
            exact jsGeB_trans (hau v rfl) hvm
      · exact hau
      · left
        rcases List.mem_map.mp hmem with ⟨m, hm, rfl⟩
        exact List.mem_map.mpr ⟨m, List.mem_reverse.mp (List.mem_filter.mp hm).1, rfl⟩

/-- Claim C7 witness: the theorem applied to a concrete two-record page
(ids 30, 20 delivered newest-first) with stored checkpoint 10. -/
theorem C7_export_backfill_witness :
    (∀ m, m ∈ (exportChannelMessages fetchedC7 (some "10".data)).written ↔
      m ∈ fetchedC7 ∧
        (∀ v, (some "10".data : Option Str) = some v → jsGtB m.id v = true)) ∧
    (∃ L, (exportChannelMessages fetchedC7 (some "10".data)).saved = [L] ∧
      (∀ m ∈ fetchedC7, jsGeB L m.id = true) ∧
      (∀ v, (some "10".data : Option Str) = some v → jsGeB L v = true) ∧
      (L ∈ fetchedC7.map (fun m => m.id) ∨
        (some "10".data : Option Str) = some L)) := by
  have h := C7_export_backfill fetchedC7 (some "10".data) 100
    (by decide)
    (by decide)
    (Or.inr ⟨"10".data, rfl, by decide⟩)
    (by intro m hm; fin_cases hm <;> decide)
    (by decide)
  exact ⟨h.2.1, h.2.2.2⟩

/-- Claim C8 counterexample: the formatter does itself query upstream state.
Two runs on the same record `msgC8` (same id, same reply state — the
reference fetch succeeds in both environments) differ because the member
fetch it performs returned different display names, so `render` is not a
function of the record and the caller-supplied reply state alone. -/
theorem C8_counterexample :
    envAlice.referenceFetchOk = envBob.referenceFetchOk ∧
    formatMessageMarkdown envAlice msgC8 ≠ formatMessageMarkdown envBob msgC8 := by
  refine ⟨rfl, by decide⟩

/-! ## Block scanner toolkit -/

theorem isPfx_trans {a b c : Str} (h1 : isPfx a b = true) (h2 : isPfx b c = true) :
    isPfx a c = true := by
  rcases (isPfx_iff a b).mp h1 with ⟨r1, rfl⟩
  rcases (isPfx_iff _ c).mp h2 with ⟨r2, rfl⟩
  rw [isPfx_iff]
  exact ⟨r1 ++ r2, by simp⟩

theorem isPfx_nil {p : Str} (h : isPfx p [] = true) : p = [] := by
  cases p with
  | nil => rfl
  | cons a as => simp [isPfx] at h

theorem head?_of_isPfx {p y : Str} (h : isPfx p y = true) (hne : p ≠ []) :
    y.head? = p.head? := by
  rcases (isPfx_iff p y).mp h with ⟨r, rfl⟩
  cases p with
  | nil => exact absurd rfl hne
  | cons a as => rfl

theorem not_occursB_tail {p : Str} {c : Char} {cs : Str}
    (h : occursB p (c :: cs) = false) : occursB p cs = false := by
  simp only [occursB, Bool.or_eq_false_iff] at h
  exact h.2

theorem newline_not_mem_sectionMarker {d : Str} (hd : '\n' ∉ d) :
    '\n' ∉ sectionMarker d := by
  unfold sectionMarker
  intro hmem
  rcases List.mem_append.mp hmem with h | h
  · exact absurd h (by decide)
  · exact hd h

theorem isPfx_sectionMarker_markerLine (d : Str) :
    isPfx (sectionMarker d) (markerLineOf d) = true := isPfx_append _ _

/-- No match of the marker line can begin strictly inside `x` when the
marker does not occur in `x` and the continuation starts with a newline (or
is empty). -/
theorem markerLine_not_pfx_mid (d x y : Str) (hd : '\n' ∉ d)
    (hx : occursB (sectionMarker d) x = false)
    (hy : y = [] ∨ y.head? = some '\n') :
    isPfx (markerLineOf d) (x ++ y) = false := by
  cases hp : isPfx (markerLineOf d) (x ++ y) with
  | false => rfl
  | true =>
    exfalso
    by_cases hlen : (markerLineOf d).length ≤ x.length
    · have h1 : isPfx (markerLineOf d) x = true := isPfx_append_of_le hp hlen
      have h2 : isPfx (sectionMarker d) x = true :=
        isPfx_trans (isPfx_sectionMarker_markerLine d) h1
      exact absurd (occursB_of_isPfx h2) (by simp [hx])
    · push_neg at hlen
      rcases isPfx_append_of_gt hp hlen with ⟨h1, h2⟩
      have hqne : (markerLineOf d).drop x.length ≠ [] := by
        intro hq
        have := congrArg List.length hq
        simp at this
        omega
      rcases hy with rfl | hy
      · exact hqne (isPfx_nil h2)
      · have hq : ((markerLineOf d).drop x.length).head? = some '\n' := by
          rw [← head?_of_isPfx h2 hqne]
          exact hy
        -- the marker line has its only newline at the very end
        rcases (isPfx_iff _ _).mp h1 with ⟨q, hq1⟩
        have hq2 : q = (markerLineOf d).drop x.length := by
          rw [hq1, List.drop_left]
        rcases hql : q with _ | ⟨qc, q'⟩
        · rw [hql] at hq2
          exact hqne hq2.symm
        · have hqc : qc = '\n' := by
            rw [hql] at hq2
            rw [← hq2] at hq
            simpa using hq
          subst hqc
          -- markerLineOf d = x ++ '\n' :: q', and markerLineOf d = marker ++ ['\n']
          have hsplit : sectionMarker d ++ ['\n'] = x ++ '\n' :: q' := by
            rw [← hql, ← hq1]
            rfl
          rcases List.append_eq_append_iff.mp hsplit with ⟨e, he1, he2⟩ | ⟨e, he1, he2⟩
          · -- x = marker ++ e and ['\n'] = e ++ '\n' :: q'
            rcases e with _ | ⟨ec, e'⟩
            · have hxm : x = sectionMarker d := by simpa using he1
              have hoc : occursB (sectionMarker d) x = true := by
                rw [hxm]
                exact occursB_of_isPfx (isPfx_refl (sectionMarker d))
              exact absurd hoc (by simp [hx])
            · have hlen2 := congrArg List.length he2
              simp only [List.length_append, List.length_cons,
                List.length_nil] at hlen2
              omega
          · -- marker = x ++ e and '\n' :: q' = e ++ ['\n']
            rcases e with _ | ⟨ec, e'⟩
            · have hxm : x = sectionMarker d := by simpa using he1.symm
              have hoc : occursB (sectionMarker d) x = true := by
                rw [hxm]
                exact occursB_of_isPfx (isPfx_refl (sectionMarker d))
              exact absurd hoc (by simp [hx])
            · have hec : ec = '\n' := by
                have := congrArg List.head? he2
                simpa using this.symm
              subst hec
              have : '\n' ∈ sectionMarker d := by
                rw [he1]
                simp
              exact newline_not_mem_sectionMarker hd this

/-- Walking a region that cannot contain or begin a match of id `d`. -/
theorem scanParts_walk_d (d : Str) (hd : '\n' ∉ d) :
    ∀ (x y : Str), occursB (sectionMarker d) x = false →
      (y = [] ∨ y.head? = some '\n') →
      scanParts d none (x ++ y) = x.map BlockPart.lit ++ scanParts d none y := by
  intro x
  induction x with
  | nil => intro y _ _; simp
  | cons c x' ih =>
    intro y hx hy
    have hx' : occursB (sectionMarker d) x' = false := not_occursB_tail hx
    have hcond : (c = '\n' && isPfx (markerLineOf d) (x' ++ y)) = false := by
      rw [markerLine_not_pfx_mid d x' y hd hx' hy]
      simp
    show scanParts d none (c :: (x' ++ y)) = _
    rw [scanParts, hcond]
    simp only [Bool.false_eq_true, if_false, List.map_cons, List.cons_append]
    rw [ih y hx' hy]

/-- Consuming the already-recognized marker line in skip mode. -/
theorem scanParts_skip (d : Str) :
    ∀ (u y : Str), scanParts d (some u.length) (u ++ y) = scanParts d (some 0) y := by
  intro u
  induction u with
  | nil => intro y; rfl
  | cons c u' ih =>
    intro y
    show scanParts d (some (u'.length + 1)) (c :: (u' ++ y)) = _
    rw [scanParts]
    exact ih y

/-- A string in which the marker of `d` does not occur produces no matches,
whatever the scanner state. -/
theorem scanParts_no_hits (d : Str) :
    ∀ (s : Str) (m : Option Nat), occursB (sectionMarker d) s = false →
      (scanParts d m s).filter BlockPart.isHit = [] := by
  intro s
  induction s with
  | nil => intro m _; cases m with
    | none => rfl
    | some k => cases k <;> rfl
  | cons c cs ih =>
    intro m hs
    have hcs : occursB (sectionMarker d) cs = false := not_occursB_tail hs
    have hcond : (c = '\n' && isPfx (markerLineOf d) cs) = false := by
      cases hpf : isPfx (markerLineOf d) cs with
      | false => simp
      | true =>
        exfalso
        have : isPfx (sectionMarker d) cs = true :=
          isPfx_trans (isPfx_sectionMarker_markerLine d) hpf
        exact absurd (occursB_of_isPfx this) (by simp [hcs])
    cases m with
    | none =>
      rw [scanParts, hcond]
      simp only [Bool.false_eq_true, if_false, List.filter_cons]
      have : BlockPart.isHit (BlockPart.lit c) = false := rfl
      rw [this]
      simp only [Bool.false_eq_true, if_false]
      exact ih none hcs
    | some k =>
      cases k with
      | succ k' =>
        rw [scanParts]
        exact ih (some k') hcs
      | zero =>
        rw [scanParts]
        cases hms : isPfx mstart (c :: cs) with
        | false =>
          simp only [Bool.false_eq_true, if_false]
          exact ih (some 0) hcs
        | true =>
          simp only [if_true, hcond, Bool.false_eq_true, if_false, List.filter_cons]
          have : BlockPart.isHit (BlockPart.lit c) = false := rfl
          rw [this]
          simp only [Bool.false_eq_true, if_false]
          exact ih none hcs

theorem filter_isHit_map_lit (l : Str) :
    ((l.map BlockPart.lit).filter BlockPart.isHit) = [] := by
  rw [List.filter_eq_nil_iff]
  intro a ha
  rcases List.mem_map.mp ha with ⟨c, _, rfl⟩
  simp [BlockPart.isHit]

/-- Appending a fresh rendered block to content free of its marker yields
exactly one match. -/
theorem countBlocks_append_one (d X tail : Str) (hd : '\n' ∉ d) (_hX : X ≠ [])
    (h1 : occursB (sectionMarker d) X = false)
    (h2 : occursB (sectionMarker d) tail = false) :
    countBlocks d (X ++ '\n' :: (markerLineOf d ++ tail)) = 1 := by
  unfold countBlocks parts
  have hpos : isPfx (markerLineOf d) (X ++ '\n' :: (markerLineOf d ++ tail)) = false :=
    markerLine_not_pfx_mid d X ('\n' :: (markerLineOf d ++ tail)) hd h1 (Or.inr rfl)
  rw [hpos]
  simp only [Bool.false_eq_true, if_false]
  rw [scanParts_walk_d d hd X ('\n' :: (markerLineOf d ++ tail)) h1 (Or.inr rfl)]
  have hstep : scanParts d none ('\n' :: (markerLineOf d ++ tail)) =
      BlockPart.hit true :: scanParts d (some (markerLineOf d).length) (markerLineOf d ++ tail) := by
    rw [scanParts]
    have hco : (('\n' : Char) = '\n' && isPfx (markerLineOf d) (markerLineOf d ++ tail)) = true := by
      simp [isPfx_append]
    rw [hco]
    simp
  rw [hstep, scanParts_skip d (markerLineOf d) tail]
  rw [List.filter_append, filter_isHit_map_lit]
  simp only [List.nil_append, List.filter_cons]
  have : BlockPart.isHit (BlockPart.hit true) = true := rfl
  rw [this]
  simp only [if_true]
  rw [scanParts_no_hits d tail (some 0) h2]
  rfl

/-! ## Claim C1: idempotent insert -/

/-- Claim C1 (amended): if the start-marker text for `r.id` occurs neither
in the prior file content, nor in the file header, nor in the rendered block
after its own marker line, then inserting twice yields a file with exactly
one block for `r.id`, and the second insert returns the file unchanged. -/
theorem C1_insert_idempotent (env : Upstream) (c : Str) (msg : Message)
    (h1 : occursB (sectionMarker msg.id) c = false)
    (h2 : occursB (sectionMarker msg.id) (formatTail env msg) = false)
    (h3 : '\n' ∉ msg.id)
    (h4 : occursB (sectionMarker msg.id) (headerFor msg) = false) :
    countBlocks msg.id (writeMessage env c msg) = 1 ∧
    writeMessage env (writeMessage env c msg) msg = writeMessage env c msg := by
  have hfmt : formatMessageMarkdown env msg =
      '\n' :: (markerLineOf msg.id ++ formatTail env msg) := rfl
  have hhdr_ne : headerFor msg ≠ [] := by
    unfold headerFor
    intro h
    have := congrArg List.length h
    simp at this
  -- the file after the first insert, as header-or-content plus the block
  have main : ∀ X : Str, X ≠ [] → occursB (sectionMarker msg.id) X = false →
      countBlocks msg.id (X ++ formatMessageMarkdown env msg) = 1 ∧
      occursB (sectionMarker msg.id) (X ++ formatMessageMarkdown env msg) = true ∧
      (X ++ formatMessageMarkdown env msg) ≠ [] := by
    intro X hXne hXocc
    refine ⟨?_, ?_, ?_⟩
    · rw [hfmt]
      exact countBlocks_append_one msg.id X (formatTail env msg) h3 hXne hXocc h2
    · rw [hfmt]
      refine occursB_append_right X ?_
      show occursB _ ('\n' :: (markerLineOf msg.id ++ formatTail env msg)) = true
      unfold occursB
      refine Bool.or_eq_true_iff.mpr (Or.inr ?_)
      refine occursB_of_isPfx (isPfx_trans (isPfx_sectionMarker_markerLine msg.id) ?_)
      exact isPfx_append _ _
    · intro h
      rcases List.append_eq_nil.mp h with ⟨h', _⟩
      exact hXne h'
  by_cases hc : c = []
  · subst hc
    have hw1 : writeMessage env [] msg = headerFor msg ++ formatMessageMarkdown env msg := by
      unfold writeMessage
      simp [truthyStr]
    rcases main (headerFor msg) hhdr_ne h4 with ⟨hcount, hocc, hne⟩
    rw [hw1]
    refine ⟨hcount, ?_⟩
    unfold writeMessage
    have ht : truthyStr (headerFor msg ++ formatMessageMarkdown env msg) = true :=
      truthyStr_ne hne
    rw [ht]
    simp only [Bool.true_and]
    rw [show containsMessage (headerFor msg ++ formatMessageMarkdown env msg) msg.id =
      occursB (sectionMarker msg.id) (headerFor msg ++ formatMessageMarkdown env msg) from rfl]
    rw [hocc]
    simp
  · have hct : truthyStr c = true := truthyStr_ne hc
    have hw1 : writeMessage env c msg = c ++ formatMessageMarkdown env msg := by
      unfold writeMessage
      rw [hct]
      simp only [Bool.true_and]
      rw [show containsMessage c msg.id = occursB (sectionMarker msg.id) c from rfl, h1]
      simp
    rcases main c hc h1 with ⟨hcount, hocc, hne⟩
    rw [hw1]
    refine ⟨hcount, ?_⟩
    unfold writeMessage
    rw [truthyStr_ne hne]
    simp only [Bool.true_and]
    rw [show containsMessage (c ++ formatMessageMarkdown env msg) msg.id =
      occursB (sectionMarker msg.id) (c ++ formatMessageMarkdown env msg) from rfl]
    rw [hocc]
    simp

/-- Claim C1 witness: the amended theorem applied to an empty file and a
concrete record. -/
theorem C1_insert_idempotent_witness :
    countBlocks msgC1.id (writeMessage envPlain [] msgC1) = 1 ∧
    writeMessage envPlain (writeMessage envPlain [] msgC1) msgC1 =
      writeMessage envPlain [] msgC1 :=
  C1_insert_idempotent envPlain [] msgC1 (by decide) (by decide) (by decide) (by decide)

/-- Claim C1 counterexample: for a file whose only block has id `123`,
inserting the record with id `12` twice is a no-op both times (duplicate
suppression fires because the marker of `12` is a substring of the marker of
`123`), so the resulting file contains no block whose start marker encodes
`12` — not exactly one. -/
theorem C1_counterexample :
    writeMessage envPlain "# C\n\n## Message 123\nbody\n".data msgC1 =
      "# C\n\n## Message 123\nbody\n".data ∧
    writeMessage envPlain
        (writeMessage envPlain "# C\n\n## Message 123\nbody\n".data msgC1) msgC1 =
      "# C\n\n## Message 123\nbody\n".data ∧
    msgC1.id = "12".data ∧
    countBlocks "12".data "# C\n\n## Message 123\nbody\n".data = 0 := by
  refine ⟨by decide, by decide, rfl, by decide⟩

/-! ## Structured-file toolkit

Lemmas relating the scanner and the replacement functions to the structured
view `mkFile hdr blocks` of a well-formed archive file. -/

theorem isPfx_extend {p s : Str} (t : Str) (h : isPfx p s = true) :
    isPfx p (s ++ t) = true := by
  rcases (isPfx_iff p s).mp h with ⟨r, rfl⟩
  rw [isPfx_iff]
  exact ⟨r ++ t, by simp⟩

/-- A newline-free pattern that prefixes `x ++ y`, where `y` is empty or
starts with a newline, already prefixes `x`. -/
theorem isPfx_stop {p x y : Str} (h : isPfx p (x ++ y) = true) (hnl : '\n' ∉ p)
    (hy : y = [] ∨ y.head? = some '\n') : isPfx p x = true := by
  by_cases hlen : p.length ≤ x.length
  · exact isPfx_append_of_le h hlen
  · push_neg at hlen
    rcases isPfx_append_of_gt h hlen with ⟨_, h2⟩
    have hqne : p.drop x.length ≠ [] := by
      intro hq
      have := congrArg List.length hq
      simp at this
      omega
    exfalso
    rcases hy with rfl | hy
    · exact hqne (isPfx_nil h2)
    · have := head?_of_isPfx h2 hqne
      rw [hy] at this
      have hmem : '\n' ∈ p.drop x.length := by
        cases hdq : p.drop x.length with
        | nil => exact absurd hdq hqne
        | cons a q' =>
          rw [hdq] at this
          simp only [List.head?_cons, Option.some.injEq] at this
          rw [this]
          simp
      exact hnl (List.drop_subset _ _ hmem)

/-- The same, for a pattern whose only newline is its head character. -/
theorem isPfx_stop_cons {p0 : Char} {pt x y : Str}
    (h : isPfx (p0 :: pt) (x ++ y) = true) (hx : x ≠ []) (hnl : '\n' ∉ pt)
    (hy : y = [] ∨ y.head? = some '\n') : isPfx (p0 :: pt) x = true := by
  cases x with
  | nil => exact absurd rfl hx
  | cons c x' =>
    simp only [List.cons_append, isPfx, Bool.and_eq_true, beq_iff_eq] at h ⊢
    exact ⟨h.1, isPfx_stop h.2 hnl hy⟩

theorem mstart_eq : mstart = '\n' :: "## Message ".data := by decide

theorem newline_not_mem_mtail : '\n' ∉ "## Message ".data := by decide

theorem isPfx_mtail_markerLine (d : Str) :
    isPfx "## Message ".data (markerLineOf d) = true := by
  rw [isPfx_iff]
  refine ⟨d ++ ['\n'], ?_⟩
  unfold markerLineOf sectionMarker
  simp

/-- Two distinct newline-free ids have incompatible marker lines: the marker
line of `d` never prefixes the marker line of `e` (plus anything). -/
theorem ids_eq_of_append_newline {d e t r : Str} (hd : '\n' ∉ d) (he : '\n' ∉ e)
    (h : (e ++ ['\n']) ++ t = (d ++ ['\n']) ++ r) : d = e := by
  induction d generalizing e with
  | nil =>
    cases e with
    | nil => rfl
    | cons b e' =>
      simp only [List.append_assoc, List.cons_append, List.nil_append] at h
      have hb : b = '\n' := by
        have := congrArg List.head? h
        simpa using this
      exact absurd (hb ▸ List.mem_cons_self b e') he
  | cons a d' ih =>
    cases e with
    | nil =>
      simp only [List.append_assoc, List.cons_append, List.nil_append] at h
      have ha : a = '\n' := by
        have := congrArg List.head? h
        simpa using this.symm
      exact absurd (ha ▸ List.mem_cons_self a d') hd
    | cons b e' =>
      simp only [List.append_assoc, List.cons_append, List.cons.injEq] at h
      have hd' : '\n' ∉ d' := fun hm => hd (List.mem_cons_of_mem a hm)
      have he' : '\n' ∉ e' := fun hm => he (List.mem_cons_of_mem b hm)
      have htl : d' = e' :=
        ih hd' he' (by simpa [List.append_assoc] using h.2)
      rw [h.1, htl]

theorem markerLine_distinct {d e : Str} (t : Str) (hne : d ≠ e)
    (hd : '\n' ∉ d) (he : '\n' ∉ e) :
    isPfx (markerLineOf d) (markerLineOf e ++ t) = false := by
  cases hp : isPfx (markerLineOf d) (markerLineOf e ++ t) with
  | false => rfl
  | true =>
    exfalso
    rcases (isPfx_iff _ _).mp hp with ⟨r, hr⟩
    have hr2 : "## Message ".data ++ ((e ++ ['\n']) ++ t) =
        "## Message ".data ++ ((d ++ ['\n']) ++ r) := by
      calc "## Message ".data ++ ((e ++ ['\n']) ++ t)
          = markerLineOf e ++ t := by unfold markerLineOf sectionMarker; simp
        _ = markerLineOf d ++ r := hr
        _ = "## Message ".data ++ ((d ++ ['\n']) ++ r) := by
            unfold markerLineOf sectionMarker; simp
    have hr3 : (e ++ ['\n']) ++ t = (d ++ ['\n']) ++ r :=
      List.append_cancel_left hr2
    exact hne (ids_eq_of_append_newline hd he hr3)

/-- Splitting an equation `A ++ '\n' :: B = u ++ '\n' :: v` when `A` is
newline-free: the newline on the right is `A`'s newline, or lies inside
`B`. -/
theorem newline_split {A B u v : Str} (hA : '\n' ∉ A)
    (h : A ++ '\n' :: B = u ++ '\n' :: v) :
    (u = A ∧ v = B) ∨ ∃ w1 w2, B = w1 ++ '\n' :: w2 ∧ u = A ++ '\n' :: w1 ∧ v = w2 := by
  induction A generalizing u with
  | nil =>
    cases u with
    | nil =>
      simp only [List.nil_append, List.cons.injEq] at h
      exact Or.inl ⟨rfl, h.2.symm⟩
    | cons c u' =>
      simp only [List.nil_append, List.cons_append, List.cons.injEq] at h
      refine Or.inr ⟨u', v, h.2, ?_, rfl⟩
      rw [h.1]
      simp
  | cons a A' ih =>
    cases u with
    | nil =>
      simp only [List.cons_append, List.nil_append, List.cons.injEq] at h
      exact absurd (h.1 ▸ List.mem_cons_self a A') hA
    | cons c u' =>
      simp only [List.cons_append, List.cons.injEq] at h
      have hA' : '\n' ∉ A' := fun hm => hA (List.mem_cons_of_mem a hm)
      rcases ih hA' h.2 with ⟨h1, h2⟩ | ⟨w1, w2, h1, h2, h3⟩
      · exact Or.inl ⟨by rw [h.1, h1], h2⟩
      · refine Or.inr ⟨w1, w2, h1, ?_, h3⟩
        rw [h.1, h2]
        simp

/-- A well-formed block's interior (marker line plus body, without the
leading newline) contains no block-start pattern. -/
theorem wf_block_no_mstart {b : Blk} (hrest : wfRest b.rest = true)
    (hid : '\n' ∉ b.id) :
    occursB mstart (sectionMarker b.id ++ '\n' :: b.rest) = false := by
  have hrest2 := hrest
  simp only [wfRest, Bool.and_eq_true, Bool.not_eq_true'] at hrest2
  obtain ⟨hocc, hpfx⟩ := hrest2
  cases hr : occursB mstart (sectionMarker b.id ++ '\n' :: b.rest) with
  | false => rfl
  | true =>
    exfalso
    rcases (occursB_iff _ _).mp hr with ⟨x, y, hxy⟩
    rw [mstart_eq] at hxy
    have hxy2 : sectionMarker b.id ++ '\n' :: b.rest =
        x ++ '\n' :: ("## Message ".data ++ y) := by
      rw [hxy]
      simp
    rcases newline_split (newline_not_mem_sectionMarker hid) hxy2 with
      ⟨_, h2⟩ | ⟨w1, w2, h1, _, h3⟩
    · -- the pattern sits right after the marker line: b.rest starts with it
      have : isPfx "## Message ".data b.rest = true := by
        rw [isPfx_iff]
        exact ⟨y, h2.symm⟩
      exact absurd this (by simp [hpfx])
    · -- the pattern sits inside b.rest
      have : occursB mstart b.rest = true := by
        rw [occursB_iff]
        refine ⟨w1, y, ?_⟩
        rw [h1, ← h3, mstart_eq]
        simp
      exact absurd this (by simp [hocc])

theorem flatten_renderBlk_shape (bs : List Blk) :
    (bs.map renderBlk).flatten = [] ∨
      ∃ z, (bs.map renderBlk).flatten = '\n' :: z := by
  cases bs with
  | nil => exact Or.inl rfl
  | cons b bs' =>
    refine Or.inr ⟨(markerLineOf b.id ++ b.rest) ++ (bs'.map renderBlk).flatten, ?_⟩
    simp [renderBlk]

theorem flatten_renderBlk_mstart {bs : List Blk} (h : bs ≠ []) :
    isPfx mstart ((bs.map renderBlk).flatten) = true := by
  cases bs with
  | nil => exact absurd rfl h
  | cons b bs' =>
    show isPfx mstart (renderBlk b ++ _) = true
    rw [mstart_eq]
    unfold renderBlk
    show isPfx ('\n' :: "## Message ".data)
      ('\n' :: (markerLineOf b.id ++ b.rest) ++ _) = true
    simp only [isPfx, List.cons_append, Bool.and_eq_true, beq_self_eq_true, true_and]

/-- Walking (in search mode) a region free of the block-start pattern: every
character is copied. -/
theorem scanParts_walk_m (d : Str) :
    ∀ (x y : Str), occursB mstart x = false →
      (y = [] ∨ y.head? = some '\n') →
      scanParts d none (x ++ y) = x.map BlockPart.lit ++ scanParts d none y := by
  intro x
  induction x with
  | nil => intro y _ _; simp
  | cons c x' ih =>
    intro y hx hy
    have hx' : occursB mstart x' = false := not_occursB_tail hx
    have hcond : (c = '\n' && isPfx (markerLineOf d) (x' ++ y)) = false := by
      by_cases hc : c = '\n'
      · subst hc
        cases hpf : isPfx (markerLineOf d) (x' ++ y) with
        | false => simp
        | true =>
          exfalso
          have hmt : isPfx "## Message ".data (x' ++ y) = true :=
            isPfx_trans (isPfx_mtail_markerLine d) hpf
          have hmt2 : isPfx "## Message ".data x' = true :=
            isPfx_stop hmt newline_not_mem_mtail hy
          have hms : isPfx mstart ('\n' :: x') = true := by
            rw [mstart_eq]
            simp [isPfx, hmt2]
          exact absurd (occursB_of_isPfx hms) (by simp [hx])
      · simp [hc]
    show scanParts d none (c :: (x' ++ y)) = _
    rw [scanParts, hcond]
    simp only [Bool.false_eq_true, if_false, List.map_cons, List.cons_append]
    rw [ih y hx' hy]

/-- Walking (inside a match body) a region free of the block-start pattern:
every character is consumed silently. -/
theorem scanParts_body_walk (d : Str) :
    ∀ (x y : Str), occursB mstart x = false →
      (y = [] ∨ isPfx mstart y = true) →
      scanParts d (some 0) (x ++ y) = scanParts d (some 0) y := by
  intro x
  induction x with
  | nil => intro y _ _; simp
  | cons c x' ih =>
    intro y hx hy
    have hy' : y = [] ∨ y.head? = some '\n' := by
      rcases hy with rfl | hy
      · exact Or.inl rfl
      · right
        have hh := head?_of_isPfx hy (by rw [mstart_eq]; simp)
        rw [hh, mstart_eq]
        rfl
    have hcond : isPfx mstart (c :: (x' ++ y)) = false := by
      cases hpf : isPfx mstart (c :: (x' ++ y)) with
      | false => rfl
      | true =>
        exfalso
        have hst : isPfx mstart (c :: x') = true := by
          rw [mstart_eq] at hpf ⊢
          exact isPfx_stop_cons (by simpa using hpf) (by simp)
            newline_not_mem_mtail hy'
        exact absurd (occursB_of_isPfx hst) (by simp [hx])
    show scanParts d (some 0) (c :: (x' ++ y)) = _
    rw [scanParts, hcond]
    simp only [Bool.false_eq_true, if_false]
    exact ih y (not_occursB_tail hx) hy

/-- At a block-start pattern the body mode behaves exactly like the search
mode. -/
theorem scanParts_body_exit (d : Str) (y : Str)
    (hy : y = [] ∨ isPfx mstart y = true) :
    scanParts d (some 0) y = scanParts d none y := by
  rcases hy with rfl | hy
  · rfl
  · cases y with
    | nil => rfl
    | cons c cs =>
      conv_lhs => rw [scanParts]
      rw [hy]
      conv_rhs => rw [scanParts]
      simp

/-- The scan of a well-formed block sequence: each block of the id scanned
for becomes one match, every other block is copied verbatim. -/
theorem scanParts_blocks (d : Str) (hd : '\n' ∉ d) :
    ∀ (bs : List Blk), (∀ b ∈ bs, wfRest b.rest = true ∧ '\n' ∉ b.id) →
      scanParts d none ((bs.map renderBlk).flatten) =
        (bs.map (fun b => if b.id = d then [BlockPart.hit true]
          else (renderBlk b).map BlockPart.lit)).flatten := by
  intro bs
  induction bs with
  | nil => intro _; rfl
  | cons b bs' ih =>
    intro hwf
    have hb := hwf b (List.mem_cons_self b bs')
    have hwf' : ∀ b' ∈ bs', wfRest b'.rest = true ∧ '\n' ∉ b'.id :=
      fun b' hb' => hwf b' (List.mem_cons_of_mem b hb')
    have hbocc : occursB mstart b.rest = false := by
      have h2 := hb.1
      simp only [wfRest, Bool.and_eq_true, Bool.not_eq_true'] at h2
      exact h2.1
    have hT : (bs'.map renderBlk).flatten = [] ∨
        isPfx mstart ((bs'.map renderBlk).flatten) = true := by
      cases bs' with
      | nil => exact Or.inl rfl
      | cons b2 bs'' => exact Or.inr (flatten_renderBlk_mstart (by simp))
    have hTnl : (bs'.map renderBlk).flatten = [] ∨
        ((bs'.map renderBlk).flatten).head? = some '\n' := by
      rcases flatten_renderBlk_shape bs' with h | ⟨z, h⟩
      · exact Or.inl h
      · exact Or.inr (by rw [h]; rfl)
    show scanParts d none (renderBlk b ++ (bs'.map renderBlk).flatten) = _
    unfold renderBlk
    by_cases hid : b.id = d
    · subst hid
      have hcond : (('\n' : Char) = '\n' &&
          isPfx (markerLineOf b.id)
            ((markerLineOf b.id ++ b.rest) ++ (bs'.map renderBlk).flatten)) = true := by
        have hap : isPfx (markerLineOf b.id)
            (markerLineOf b.id ++ (b.rest ++ (bs'.map renderBlk).flatten)) = true :=
          isPfx_append _ _
        simp [hap, List.append_assoc]
      show scanParts b.id none
        ('\n' :: ((markerLineOf b.id ++ b.rest) ++ (bs'.map renderBlk).flatten)) = _
      rw [scanParts, hcond]
      simp only [if_true]
      have hassoc : (markerLineOf b.id ++ b.rest) ++ (bs'.map renderBlk).flatten =
          markerLineOf b.id ++ (b.rest ++ (bs'.map renderBlk).flatten) := by
        simp [List.append_assoc]
      rw [hassoc, scanParts_skip b.id (markerLineOf b.id)]
      rw [scanParts_body_walk b.id b.rest _ hbocc hT]
      rw [scanParts_body_exit b.id _ hT]
      rw [ih hwf']
      simp [renderBlk]
    · have hcond : (('\n' : Char) = '\n' &&
          isPfx (markerLineOf d)
            ((markerLineOf b.id ++ b.rest) ++ (bs'.map renderBlk).flatten)) = false := by
        have hne : d ≠ b.id := fun h => hid h.symm
        have := markerLine_distinct (b.rest ++ (bs'.map renderBlk).flatten) hne hd hb.2
        simp only [List.append_assoc] at this ⊢
        simp [this]
      show scanParts d none
        ('\n' :: ((markerLineOf b.id ++ b.rest) ++ (bs'.map renderBlk).flatten)) = _
      rw [scanParts, hcond]
      simp only [Bool.false_eq_true, if_false]
      have hassoc : (markerLineOf b.id ++ b.rest) ++ (bs'.map renderBlk).flatten =
          (sectionMarker b.id ++ '\n' :: b.rest) ++ (bs'.map renderBlk).flatten := by
        simp [markerLineOf, List.append_assoc]
      rw [hassoc]
      rw [scanParts_walk_m d _ _ (wf_block_no_mstart hb.1 hb.2) hTnl]
      rw [ih hwf']
      simp [renderBlk, hid, markerLineOf, List.append_assoc]

/-- The scan of a whole well-formed file. -/
theorem parts_mkFile (d : Str) (hd : '\n' ∉ d) (hdr : Str) (bs : List Blk)
    (hh : wfHdr hdr = true) (hb : ∀ b ∈ bs, wfRest b.rest = true ∧ '\n' ∉ b.id) :
    parts d (mkFile hdr bs) =
      hdr.map BlockPart.lit ++
        (bs.map (fun b => if b.id = d then [BlockPart.hit true]
          else (renderBlk b).map BlockPart.lit)).flatten := by
  have hh2 : occursB mstart hdr = false ∧ isPfx "## Message ".data hdr = false := by
    have := hh
    simp only [wfHdr, Bool.and_eq_true, Bool.not_eq_true'] at this
    exact this
  have hTnl : (bs.map renderBlk).flatten = [] ∨
      ((bs.map renderBlk).flatten).head? = some '\n' := by
    rcases flatten_renderBlk_shape bs with h | ⟨z, h⟩
    · exact Or.inl h
    · exact Or.inr (by rw [h]; rfl)
  have hpos : isPfx (markerLineOf d) (hdr ++ (bs.map renderBlk).flatten) = false := by
    cases hp : isPfx (markerLineOf d) (hdr ++ (bs.map renderBlk).flatten) with
    | false => rfl
    | true =>
      exfalso
      have hmt : isPfx "## Message ".data (hdr ++ (bs.map renderBlk).flatten) = true :=
        isPfx_trans (isPfx_mtail_markerLine d) hp
      have hmt2 : isPfx "## Message ".data hdr = true :=
        isPfx_stop hmt newline_not_mem_mtail hTnl
      by_cases hhe : hdr = []
      · subst hhe
        exact absurd hmt2 (by decide)
      · exact absurd hmt2 (by simp [hh2.2])
  unfold parts mkFile
  rw [hpos]
  simp only [Bool.false_eq_true, if_false]
  rw [scanParts_walk_m d hdr _ hh2.1 hTnl]
  rw [scanParts_blocks d hd bs hb]

theorem renderParts_append (r0 rn : Str) (p q : List BlockPart) :
    renderParts r0 rn (p ++ q) = renderParts r0 rn p ++ renderParts r0 rn q := by
  induction p with
  | nil => rfl
  | cons a p' ih =>
    cases a with
    | lit c => simp [renderParts, ih]
    | hit lead => cases lead <;> simp [renderParts, ih]

theorem renderParts_map_lit (r0 rn : Str) (l : Str) :
    renderParts r0 rn (l.map BlockPart.lit) = l := by
  induction l with
  | nil => rfl
  | cons c l' ih => simp [renderParts, ih]

theorem renderParts_blocks (r0 rn d : Str) (bs : List Blk) :
    renderParts r0 rn ((bs.map (fun b => if b.id = d then [BlockPart.hit true]
      else (renderBlk b).map BlockPart.lit)).flatten) =
    (bs.map (fun b => if b.id = d then rn else renderBlk b)).flatten := by
  induction bs with
  | nil => rfl
  | cons b bs' ih =>
    simp only [List.map_cons, List.flatten_cons, renderParts_append, ih]
    by_cases hid : b.id = d
    · simp [hid, renderParts]
    · simp [hid, renderParts_map_lit]

/-- `content.replace(messageBlockRegex(d), repl)` on a well-formed file:
the header stays, matched blocks are replaced, other blocks are copied. -/
theorem scanRepl_mkFile (d r0 rn : Str) (hd : '\n' ∉ d) (hdr : Str) (bs : List Blk)
    (hh : wfHdr hdr = true) (hb : ∀ b ∈ bs, wfRest b.rest = true ∧ '\n' ∉ b.id) :
    scanRepl d r0 rn (mkFile hdr bs) =
      hdr ++ (bs.map (fun b => if b.id = d then rn else renderBlk b)).flatten := by
  unfold scanRepl
  rw [parts_mkFile d hd hdr bs hh hb, renderParts_append, renderParts_map_lit,
    renderParts_blocks]

/-- `messageBlockRegex(d)` finds exactly the blocks with id `d` in a
well-formed file. -/
theorem countBlocks_mkFile (d : Str) (hd : '\n' ∉ d) (hdr : Str) (bs : List Blk)
    (hh : wfHdr hdr = true) (hb : ∀ b ∈ bs, wfRest b.rest = true ∧ '\n' ∉ b.id) :
    countBlocks d (mkFile hdr bs) = (bs.filter (fun b => b.id == d)).length := by
  unfold countBlocks
  rw [parts_mkFile d hd hdr bs hh hb, List.filter_append, filter_isHit_map_lit,
    List.nil_append]
  induction bs with
  | nil => rfl
  | cons b bs' ih =>
    have hb' : ∀ b' ∈ bs', wfRest b'.rest = true ∧ '\n' ∉ b'.id :=
      fun b' h => hb b' (List.mem_cons_of_mem b h)
    simp only [List.map_cons, List.flatten_cons, List.filter_append,
      List.length_append, ih hb', List.filter_cons]
    by_cases hid : b.id = d
    · have hbeq : (b.id == d) = true := by simp [hid]
      have h1 : (List.filter BlockPart.isHit [BlockPart.hit true]).length = 1 := rfl
      simp [hid, hbeq, h1, Nat.add_comm]
    · have hbeq : (b.id == d) = false := by simp [hid]
      simp [hid, hbeq, filter_isHit_map_lit]

/-! ## Distribution of replace-all over the file structure -/

/-- Skipping exactly the length of `u` consumes `u`. -/
theorem replAllAux_skip (pat r : Str) :
    ∀ (u t : Str), replAllAux pat r u.length (u ++ t) = replAllAux pat r 0 t := by
  intro u
  induction u with
  | nil => intro t; rfl
  | cons c u' ih =>
    intro t
    show replAllAux pat r (u'.length + 1) (c :: (u' ++ t)) = replAllAux pat r 0 t
    exact ih t

/-- Replace-all copies any region whose characters never equal the
pattern's head character. -/
theorem replAllAux_walk (p0 : Char) (pt r : Str) :
    ∀ (u t : Str), (∀ c ∈ u, c ≠ p0) →
      replAllAux (p0 :: pt) r 0 (u ++ t) = u ++ replAllAux (p0 :: pt) r 0 t := by
  intro u
  induction u with
  | nil => intro t _; simp
  | cons c u' ih =>
    intro t hu
    have hc : (p0 == c) = false := by
      simp only [beq_eq_false_iff_ne, ne_eq]
      exact fun h => hu c (List.mem_cons_self c u') h.symm
    have hpf : isPfx (p0 :: pt) (c :: (u' ++ t)) = false := by
      simp [isPfx, hc]
    show replAllAux (p0 :: pt) r 0 (c :: (u' ++ t)) = c :: (u' ++ _)
    conv_lhs => rw [replAllAux]
    rw [hpf]
    simp only [Bool.false_eq_true, if_false, List.cons.injEq, true_and]
    exact ih t (fun c' h => hu c' (List.mem_cons_of_mem c h))

/-- A newline-free pattern's replace-all distributes over a split whose
right part is empty or newline-headed: no match straddles the boundary. -/
theorem replAllAux_append_core (pat r : Str) (hne : pat ≠ []) (hnl : '\n' ∉ pat) :
    ∀ (n : Nat) (x y : Str), x.length ≤ n → (y = [] ∨ y.head? = some '\n') →
      replAllAux pat r 0 (x ++ y) =
        replAllAux pat r 0 x ++ replAllAux pat r 0 y := by
  intro n
  induction n with
  | zero =>
    intro x y hx _
    have hx0 : x = [] := List.length_eq_zero.mp (Nat.le_zero.mp hx)
    subst hx0
    have h0 : replAllAux pat r 0 [] = [] := rfl
    simp [h0]
  | succ n ih =>
    intro x y hx hy
    cases x with
    | nil =>
      have h0 : replAllAux pat r 0 [] = [] := rfl
      simp [h0]
    | cons c x' =>
      simp only [List.cons_append]
      by_cases hm : isPfx pat (c :: (x' ++ y)) = true
      · have hm2 : isPfx pat ((c :: x') ++ y) = true := by simpa using hm
        have hmx : isPfx pat (c :: x') = true := isPfx_stop hm2 hnl hy
        cases pat with
        | nil => exact absurd rfl hne
        | cons p0 pt =>
          simp only [isPfx, Bool.and_eq_true, beq_iff_eq] at hmx
          rcases (isPfx_iff pt x').mp hmx.2 with ⟨v, hv⟩
          subst hv
          have hvlen : v.length ≤ n := by
            simp only [List.length_cons, List.length_append] at hx
            omega
          have hm' : isPfx (p0 :: pt) (c :: (pt ++ (v ++ y))) = true := by
            simpa using hm
          conv_lhs => rw [replAllAux]
          rw [show pt ++ v ++ y = pt ++ (v ++ y) from List.append_assoc pt v y]
          rw [if_pos hm']
          simp only [List.length_cons, Nat.add_sub_cancel]
          rw [replAllAux_skip (p0 :: pt) r pt (v ++ y)]
          rw [ih v y hvlen hy]
          conv_rhs => rw [replAllAux]
          have hmx' : isPfx (p0 :: pt) (c :: (pt ++ v)) = true := by
            simp [isPfx, hmx.1, isPfx_extend v (isPfx_refl pt)]
          rw [if_pos hmx']
          simp only [List.length_cons, Nat.add_sub_cancel]
          rw [replAllAux_skip (p0 :: pt) r pt v]
          simp
      · have hm' : isPfx pat (c :: (x' ++ y)) = false := by
          revert hm; cases isPfx pat (c :: (x' ++ y)) <;> simp
        have hmx' : isPfx pat (c :: x') = false := by
          cases hp : isPfx pat (c :: x') with
          | false => rfl
          | true =>
            have := isPfx_extend y hp
            simp only [List.cons_append] at this
            simp [this] at hm'
        have hxlen : x'.length ≤ n := by
          simp only [List.length_cons] at hx
          omega
        conv_lhs => rw [replAllAux]
        rw [hm']
        simp only [Bool.false_eq_true, if_false]
        rw [ih x' y hxlen hy]
        conv_rhs => rw [replAllAux]
        rw [hmx']
        simp only [Bool.false_eq_true, if_false, List.cons_append]

/-- The reply-reference pattern starts with `'i'` and is otherwise an
explicit append of literals around the id. -/
theorem replyReference_head (d : Str) :
    replyReference d =
      'i' :: ("n reply to [".data ++ d ++ "](#message-".data ++ d ++ ")".data) := by
  unfold replyReference
  rw [(by decide : replyLinkPrefix ++ "[".data = 'i' :: "n reply to [".data)]
  simp only [List.cons_append, List.append_assoc]

/-- The reply-reference pattern of a newline-free id is newline-free. -/
theorem newline_not_mem_replyReference {d : Str} (hd : '\n' ∉ d) :
    '\n' ∉ replyReference d := by
  intro h
  rw [replyReference_head d] at h
  rcases List.mem_cons.mp h with h | h
  · exact absurd h (by decide)
  rcases List.mem_append.mp h with h | h
  · rcases List.mem_append.mp h with h | h
    · rcases List.mem_append.mp h with h | h
      · rcases List.mem_append.mp h with h | h
        · exact absurd h (by decide)
        · exact hd h
      · exact absurd h (by decide)
    · exact hd h
  · exact absurd h (by decide)

/-- The marker prefix contains no `'i'`. -/
theorem i_not_mem_mtail : 'i' ∉ "## Message ".data := by decide

/-- Replace-all with an `'i'`-headed pattern keeps a rendered block's
leading newline and marker line and recurses into the body. -/
theorem replaceAllSub_renderBlk (pt r : Str) (b : Blk) (hi : 'i' ∉ b.id) :
    replaceAllSub ('i' :: pt) r (renderBlk b) =
      '\n' :: (markerLineOf b.id ++ replaceAllSub ('i' :: pt) r b.rest) := by
  have hu : ∀ c ∈ '\n' :: markerLineOf b.id, c ≠ 'i' := by
    intro c hc
    rcases List.mem_cons.mp hc with rfl | hc
    · decide
    · unfold markerLineOf sectionMarker at hc
      simp only [List.mem_append] at hc
      rcases hc with (hc | hc) | hc
      · intro h; subst h; exact i_not_mem_mtail hc
      · intro h; subst h; exact hi hc
      · intro h; subst h; exact absurd hc (by decide)
  have h := replAllAux_walk 'i' pt r ('\n' :: markerLineOf b.id) b.rest hu
  unfold replaceAllSub renderBlk
  simp only [List.cons_append] at h
  exact h

/-- Replace-all with a newline-free `'i'`-headed pattern distributes over a
rendered block list, acting on each body separately. -/
theorem replaceAllSub_flatten (pt r : Str) (hnl : '\n' ∉ ('i' :: pt)) :
    ∀ (bs : List Blk), (∀ b ∈ bs, 'i' ∉ b.id) →
      replaceAllSub ('i' :: pt) r ((bs.map renderBlk).flatten) =
        ((bs.map (fun b =>
          Blk.mk b.id (replaceAllSub ('i' :: pt) r b.rest))).map renderBlk).flatten := by
  intro bs
  induction bs with
  | nil => intro _; rfl
  | cons b bs' ih =>
    intro hb
    have hT : (bs'.map renderBlk).flatten = [] ∨
        ((bs'.map renderBlk).flatten).head? = some '\n' := by
      rcases flatten_renderBlk_shape bs' with h | ⟨z, h⟩
      · exact Or.inl h
      · exact Or.inr (by rw [h]; rfl)
    simp only [List.map_cons, List.flatten_cons]
    unfold replaceAllSub
    rw [replAllAux_append_core ('i' :: pt) r (List.cons_ne_nil _ _) hnl
      (renderBlk b).length (renderBlk b) _ le_rfl hT]
    have hb0 := replaceAllSub_renderBlk pt r b (hb b (List.mem_cons_self b bs'))
    unfold replaceAllSub at hb0
    rw [hb0]
    have := ih (fun b' h => hb b' (List.mem_cons_of_mem b h))
    unfold replaceAllSub at this
    rw [this]
    simp [renderBlk]

/-- Replace-all with a newline-free `'i'`-headed pattern distributes over a
whole well-formed file: it acts on the header and on each block body. -/
theorem replaceAllSub_mkFile (pt r : Str) (hnl : '\n' ∉ ('i' :: pt)) (hdr : Str)
    (bs : List Blk) (hb : ∀ b ∈ bs, 'i' ∉ b.id) :
    replaceAllSub ('i' :: pt) r (hdr ++ (bs.map renderBlk).flatten) =
      mkFile (replaceAllSub ('i' :: pt) r hdr)
        (bs.map (fun b => Blk.mk b.id (replaceAllSub ('i' :: pt) r b.rest))) := by
  have hT : (bs.map renderBlk).flatten = [] ∨
      ((bs.map renderBlk).flatten).head? = some '\n' := by
    rcases flatten_renderBlk_shape bs with h | ⟨z, h⟩
    · exact Or.inl h
    · exact Or.inr (by rw [h]; rfl)
  unfold replaceAllSub mkFile
  rw [replAllAux_append_core ('i' :: pt) r (List.cons_ne_nil _ _) hnl
    hdr.length hdr _ le_rfl hT]
  have := replaceAllSub_flatten pt r hnl bs hb
  unfold replaceAllSub at this
  rw [this]

/-- Removing the matched blocks and flattening is flattening the filtered
list. -/
theorem flatten_if_nil_filter (d : Str) (bs : List Blk) :
    (bs.map (fun b => if b.id = d then [] else renderBlk b)).flatten =
      ((bs.filter (fun b => !(b.id == d))).map renderBlk).flatten := by
  induction bs with
  | nil => rfl
  | cons b bs' ih =>
    simp only [List.map_cons, List.flatten_cons, List.filter_cons]
    by_cases hid : b.id = d
    · have hbeq : (!(b.id == d)) = false := by simp [hid]
      simp [hid, hbeq, ih]
    · have hbeq : (!(b.id == d)) = true := by simp [hid]
      simp [hid, hbeq, ih]

/-- A file with at least one block is truthy (non-empty). -/
theorem truthyStr_mkFile (hdr : Str) (bs : List Blk) (h : bs ≠ []) :
    truthyStr (mkFile hdr bs) = true := by
  cases bs with
  | nil => exact absurd rfl h
  | cons b bs' =>
    simp [truthyStr, mkFile, renderBlk, List.isEmpty_iff]

/-- `setEditedNow` does not change the record id. -/
theorem setEditedNow_id (msg : Message) (now : Str) :
    (setEditedNow msg now).id = msg.id := by
  unfold setEditedNow
  cases msg.editedTs <;> rfl

/-- Trimming the rendered block's leading whitespace leaves exactly the
marker line and tail: the update replacement text. -/
theorem jsTrimStart_format (env : Upstream) (m : Message) :
    jsTrimStart (formatMessageMarkdown env m) =
      markerLineOf m.id ++ formatTail env m := by
  unfold jsTrimStart formatMessageMarkdown markerLineOf sectionMarker
  rw [(by decide : ("## Message ".data : Str) = '#' :: "# Message ".data)]
  have h1 : jsWhitespace '\n' = true := by decide
  have h2 : jsWhitespace '#' = false := by decide
  simp [List.dropWhile_cons, h1, h2]

/-- C3: on a well-formed archive file (header plus rendered blocks with
newline-free, `'i'`-free ids), if a block with id `d` exists, `deleteMessage`
removes every block with id `d` and rewrites every occurrence of the
link-form reply reference to `d` — in the header and in every remaining
block body, i.e. document-wide — into the deleted-placeholder form, then
normalizes the trailing newline run; if no block with id `d` exists, the
file is returned unchanged (a no-op, not an error). -/
theorem C3_delete_repairs (hdr d : Str) (bs : List Blk)
    (hh : wfHdr hdr = true)
    (hb : ∀ b ∈ bs, wfRest b.rest = true ∧ '\n' ∉ b.id ∧ 'i' ∉ b.id)
    (hd : '\n' ∉ d) :
    ((∃ b ∈ bs, b.id = d) →
      deleteMessage (mkFile hdr bs) d =
        trimTrailingNewlines
          (mkFile
            (replaceAllSub (replyReference d) (deletedMessageReference d) hdr)
            ((bs.filter (fun b => !(b.id == d))).map
              (fun b => Blk.mk b.id
                (replaceAllSub (replyReference d)
                  (deletedMessageReference d) b.rest))))) ∧
    ((∀ b ∈ bs, b.id ≠ d) → deleteMessage (mkFile hdr bs) d = mkFile hdr bs) := by
  have hb' : ∀ b ∈ bs, wfRest b.rest = true ∧ '\n' ∉ b.id :=
    fun b h => ⟨(hb b h).1, (hb b h).2.1⟩
  have hcnt := countBlocks_mkFile d hd hdr bs hh hb'
  constructor
  · rintro ⟨b0, hb0, hid0⟩
    have hne : bs ≠ [] := fun h => by
      subst h
      exact absurd hb0 (List.not_mem_nil b0)
    have htru : truthyStr (mkFile hdr bs) = true := truthyStr_mkFile hdr bs hne
    have hmem : b0 ∈ bs.filter (fun b => b.id == d) :=
      List.mem_filter.mpr ⟨hb0, by simp [hid0]⟩
    have hlen : (bs.filter (fun b => b.id == d)).length ≠ 0 := by
      intro h0
      exact List.ne_nil_of_mem hmem (List.length_eq_zero.mp h0)
    have hhas : hasBlock d (mkFile hdr bs) = true := by
      unfold hasBlock
      rw [hcnt]
      simpa using hlen
    have hfi : ∀ b ∈ bs.filter (fun b => !(b.id == d)), 'i' ∉ b.id :=
      fun b h => (hb b (List.mem_of_mem_filter h)).2.2
    have hinl : '\n' ∉ replyReference d := newline_not_mem_replyReference hd
    unfold deleteMessage
    rw [htru, hhas]
    simp only [Bool.not_true, Bool.false_eq_true, if_false]
    rw [scanRepl_mkFile d [] [] hd hdr bs hh hb']
    rw [flatten_if_nil_filter d bs]
    rw [replyReference_head d] at hinl ⊢
    rw [replaceAllSub_mkFile _ (deletedMessageReference d) hinl hdr
      (bs.filter (fun b => !(b.id == d))) hfi]
  · intro hno
    have hfe : bs.filter (fun b => b.id == d) = [] :=
      List.filter_eq_nil_iff.mpr (fun b hm => by simp [hno b hm])
    have hhasf : hasBlock d (mkFile hdr bs) = false := by
      unfold hasBlock
      rw [hcnt, hfe]
      rfl
    unfold deleteMessage
    cases htru : truthyStr (mkFile hdr bs) with
    | false => simp [htru]
    | true => simp [htru, hhasf]

/-- Claim C3 witness: deleting block `2` from the file with header `H` and
blocks `1` (whose body carries a link-form reply reference to `2`) and `2`
removes block `2`, rewrites block `1`'s reference to the deleted-placeholder
form, and produces exactly the expected bytes. -/
theorem C3_delete_repairs_witness :
    deleteMessage (mkFile "H\n".data [blkW1, blkW2]) "2".data =
      trimTrailingNewlines
        (mkFile
          (replaceAllSub (replyReference "2".data)
            (deletedMessageReference "2".data) "H\n".data)
          (([blkW1, blkW2].filter (fun b => !(b.id == "2".data))).map
            (fun b => Blk.mk b.id
              (replaceAllSub (replyReference "2".data)
                (deletedMessageReference "2".data) b.rest)))) ∧
    deleteMessage (mkFile "H\n".data [blkW1, blkW2]) "2".data =
      "H\n\n## Message 1\na in reply to **DELETED MESSAGE** (2)\n".data := by
  have h := (C3_delete_repairs "H\n".data "2".data [blkW1, blkW2] (by decide)
    (by decide) (by decide)).1
    ⟨blkW2, List.mem_cons_of_mem _ (List.mem_cons_self _ _), rfl⟩
  refine ⟨h, ?_⟩
  rw [h]
  decide

/-- C4 (amended): updating record B in a well-formed file with blocks A, B,
C in order replaces exactly B's text span with the freshly rendered block
and keeps A's and C's rendered spans, after which the trailing newline run
of the whole file is collapsed to a single newline — the sole deviation
from byte-identity of the sibling blocks. -/
theorem C4_update_frame (env : Upstream) (now hdr : Str) (A B C : Blk)
    (msg : Message) (hh : wfHdr hdr = true)
    (hb : ∀ b ∈ [A, B, C], wfRest b.rest = true ∧ '\n' ∉ b.id)
    (hd : '\n' ∉ msg.id) (hB : B.id = msg.id) (hA : A.id ≠ msg.id)
    (hC : C.id ≠ msg.id) :
    updateMessage env now (mkFile hdr [A, B, C]) msg =
      trimTrailingNewlines
        (mkFile hdr
          [A, Blk.mk msg.id (formatTail env (setEditedNow msg now)), C]) := by
  have htru : truthyStr (mkFile hdr [A, B, C]) = true :=
    truthyStr_mkFile hdr [A, B, C] (by simp)
  have hcnt := countBlocks_mkFile msg.id hd hdr [A, B, C] hh hb
  have hmem : B ∈ [A, B, C].filter (fun b => b.id == msg.id) :=
    List.mem_filter.mpr ⟨by simp, by simp [hB]⟩
  have hlen : ([A, B, C].filter (fun b => b.id == msg.id)).length ≠ 0 := by
    intro h0
    exact List.ne_nil_of_mem hmem (List.length_eq_zero.mp h0)
  have hhas : hasBlock msg.id (mkFile hdr [A, B, C]) = true := by
    unfold hasBlock
    rw [hcnt]
    simpa using hlen
  unfold updateMessage
  rw [htru, hhas]
  simp only [Bool.not_true, Bool.false_eq_true, if_false]
  rw [scanRepl_mkFile msg.id _ _ hd hdr [A, B, C] hh hb]
  simp only [List.map_cons, List.map_nil, List.flatten_cons, List.flatten_nil]
  rw [if_neg hA, if_pos hB, if_neg hC]
  rw [jsTrimStart_format env (setEditedNow msg now), setEditedNow_id]
  simp [mkFile, renderBlk]

/-- Claim C4 witness: updating record `2` in the file with header `H` and
blocks `1`, `2`, `3` yields the file whose middle block is the freshly
rendered block for `2`, with blocks `1` and `3` as rendered and the
trailing newline run collapsed. -/
theorem C4_update_frame_witness :
    updateMessage envPlain "N".data (mkFile "H\n".data [blkA4, blkB4, blkD4])
        msgC4 =
      trimTrailingNewlines
        (mkFile "H\n".data
          [blkA4,
            Blk.mk msgC4.id (formatTail envPlain (setEditedNow msgC4 "N".data)),
            blkD4]) :=
  C4_update_frame envPlain "N".data "H\n".data blkA4 blkB4 blkD4 msgC4
    (by decide) (by decide) (by decide) (by decide) (by decide) (by decide)

/-- Claim C4 counterexample: in `fileC4` (blocks 1, 2, 3, block 3's span
ending in a double newline at end of file), updating record 2 collapses the
file's trailing newline run, so block 3's bytes change even though only
block 2 was updated — block C is not byte-identical before and after,
refuting the claim. -/
theorem C4_counterexample :
    occursB blkC4 fileC4 = true ∧
    hasBlock "3".data (updateMessage envPlain "N".data fileC4 msgC4) = true ∧
    occursB blkC4 (updateMessage envPlain "N".data fileC4 msgC4) = false := by
  refine ⟨by decide, by decide, by decide⟩

end Archiver

